import Mathlib

/-!
Verification development for the MapSync auto-georeferencing pipeline.

The Python sources under `processing/` are shallowly embedded here:
pure numeric code is translated to functions over `ℚ` (exact pixel and
degree arithmetic) or `ℝ` (trigonometric tile math and haversine
residuals), stateful download loops become functions over explicit
lists of per-attempt HTTP outcomes, and fallible code returns `Option`
or tagged outcome types mirroring the raised-exception branches.
-/

namespace MapSync

/-! ## Basic numeric helpers shared by the embeddings -/

/-- Python's `int()` applied to a rational value: truncation toward zero. -/
def pyIntQ (q : ℚ) : ℤ := if 0 ≤ q then ⌊q⌋ else ⌈q⌉

/-- Python's `int()` applied to a real value: truncation toward zero. -/
noncomputable def pyIntR (x : ℝ) : ℤ := if 0 ≤ x then ⌊x⌋ else ⌈x⌉

/-- Python's `round()` to an integer on a rational: round half to even. -/
def pyRoundQ (q : ℚ) : ℤ :=
  if q - ⌊q⌋ < 1/2 then ⌊q⌋
  else if 1/2 < q - ⌊q⌋ then ⌊q⌋ + 1
  else if Even ⌊q⌋ then ⌊q⌋ else ⌊q⌋ + 1

/-- Python's `round(x, 1)` on a rational. -/
def round1Q (q : ℚ) : ℚ := (pyRoundQ (q * 10) : ℚ) / 10

/-- Python's `round(x, 6)` on a rational. -/
def round6Q (q : ℚ) : ℚ := (pyRoundQ (q * 1000000) : ℚ) / 1000000

/-- Python's `round()` to an integer on a real: round half to even. -/
noncomputable def pyRoundR (x : ℝ) : ℤ :=
  if x - ⌊x⌋ < 1/2 then ⌊x⌋
  else if 1/2 < x - ⌊x⌋ then ⌊x⌋ + 1
  else if Even ⌊x⌋ then ⌊x⌋ else ⌊x⌋ + 1

/-- Python's `round(x, 1)` on a real. -/
noncomputable def round1R (x : ℝ) : ℝ := (pyRoundR (x * 10) : ℝ) / 10

/-- Clamp a rational to the unit interval, as `max(0.0, min(1.0, x))`. -/
def clamp01 (x : ℚ) : ℚ := max 0 (min 1 x)

/-! ## Bounding-box validation (`auto_georeferencer.run_auto_georeferencing`) -/

/-- A WGS84 bounding box with rational coordinates (degrees). -/
structure BBoxQ where
  north : ℚ
  south : ℚ
  east : ℚ
  west : ℚ
deriving DecidableEq

/-- Constant `MAX_SPAN = 0.5` from `auto_georeferencer.py`. -/
def MAX_SPAN : ℚ := 1/2

/-- Constant `MIN_SPAN = 0.001` from `auto_georeferencer.py`. -/
def MIN_SPAN : ℚ := 1/1000

/-- Outcome of the bounding-box validation block in `run_auto_georeferencing`
(lines 29-51), one constructor per returned error dict plus acceptance. -/
inductive BoundsCheck where
  | badOrder
  | tooLarge
  | tooSmall
  | accepted
deriving DecidableEq

/-- Embeds the validation block of `run_auto_georeferencing`: reject when a
span is nonpositive; reject when either span exceeds `MAX_SPAN`; reject when
BOTH spans are below `MIN_SPAN`; otherwise accept. -/
def validateBounds (b : BBoxQ) : BoundsCheck :=
  if b.north - b.south ≤ 0 ∨ b.east - b.west ≤ 0 then .badOrder
  else if MAX_SPAN < b.north - b.south ∨ MAX_SPAN < b.east - b.west then .tooLarge
  else if b.north - b.south < MIN_SPAN ∧ b.east - b.west < MIN_SPAN then .tooSmall
  else .accepted

/-- Stage reached by `run_auto_georeferencing` after its validation block:
either it returned one of the validation error dicts, or it went on to call
`download_reference_image` (the first network activity). -/
inductive AutoStage where
  | rejected (r : BoundsCheck)
  | fetchReference (b : BBoxQ)
deriving DecidableEq

/-- Control flow of `run_auto_georeferencing` up to the tile download:
validation runs first and only an accepted box reaches the fetch. -/
def autoGeoreferencingStage (b : BBoxQ) : AutoStage :=
  match validateBounds b with
  | .accepted => .fetchReference b
  | r => .rejected r

/-! ## Tile retry loop (`tile_downloader._download_tile`) -/

/-- Constant `MAX_RETRIES = 3` from `tile_downloader.py`. -/
def MAX_RETRIES : ℕ := 3

/-- Outcome of one HTTP request inside `_download_tile`: a response with a
status code, or a raised exception. -/
inductive HttpAttempt where
  | status (code : ℕ)
  | exn
deriving DecidableEq

/-- Embeds the retry loop body of `_download_tile` over a list of per-attempt
request outcomes: status 200 returns the tile, status 404 returns `None`
immediately (no further attempts), anything else retries until the attempt
budget is exhausted, after which the function returns `None`. -/
def downloadTileGo : ℕ → List HttpAttempt → Option Unit
  | 0, _ => none
  | _ + 1, [] => none
  | k + 1, a :: rest =>
    match a with
    | .status c => if c = 200 then some () else if c = 404 then none else downloadTileGo k rest
    | .exn => downloadTileGo k rest

/-- Embeds `_download_tile` with its `MAX_RETRIES = 3` attempt budget. -/
def downloadTile (rs : List HttpAttempt) : Option Unit := downloadTileGo MAX_RETRIES rs

/-- Number of tiles of a download run (one outcome list per tile, in grid
order) for which `_download_tile` returned `None`; this is the `failures`
counter of `download_reference_image`. -/
def failuresCount (run : List (List HttpAttempt)) : ℕ :=
  run.countP (fun rs => (downloadTile rs).isNone)

/-- Embeds the abort test `failures > total_tiles * 0.2` of
`download_reference_image` in exact arithmetic (the float literal `0.2` is
the IEEE double closest to 1/5; no claim here touches an input where the
rounding of the float product changes the comparison). -/
def abortsDownload (run : List (List HttpAttempt)) : Bool :=
  decide ((run.length : ℚ) * (1/5) < (failuresCount run : ℚ))

/-! ## Least-squares affine fit (`georeferencer._compute_affine`) -/

/-- A ground control point as consumed by `run_georeferencing`: original
full-resolution pixel coordinates plus geographic coordinates (degrees). -/
structure Gcp where
  pixel_x : ℚ
  pixel_y : ℚ
  lat : ℚ
  lon : ℚ
deriving DecidableEq

/-- Design-matrix row `[1, pixel_x, pixel_y]` of one GCP. -/
def designRow (g : Gcp) : Fin 3 → ℚ := ![1, g.pixel_x, g.pixel_y]

/-- Normal matrix `AᵀA` of the least-squares system solved by
`_compute_affine`, with `A` the stacked design rows. -/
def ata (gcps : List Gcp) : Matrix (Fin 3) (Fin 3) ℚ :=
  Matrix.of fun i j => (gcps.map (fun g => designRow g i * designRow g j)).sum

/-- Right-hand side `Aᵀb` of the least-squares system, for the observation
`b = f` (longitude or latitude of each GCP). -/
def atv (gcps : List Gcp) (f : Gcp → ℚ) (i : Fin 3) : ℚ :=
  (gcps.map (fun g => designRow g i * f g)).sum

/-- Determinant of a 3×3 rational matrix, written out. -/
def det3 (M : Matrix (Fin 3) (Fin 3) ℚ) : ℚ :=
  M 0 0 * M 1 1 * M 2 2 - M 0 0 * M 1 2 * M 2 1 - M 0 1 * M 1 0 * M 2 2
    + M 0 1 * M 1 2 * M 2 0 + M 0 2 * M 1 0 * M 2 1 - M 0 2 * M 1 1 * M 2 0

/-- Matrix `M` with column `k` replaced by the vector `b` (for Cramer's rule). -/
def replaceCol (M : Matrix (Fin 3) (Fin 3) ℚ) (k : Fin 3) (b : Fin 3 → ℚ) :
    Matrix (Fin 3) (Fin 3) ℚ :=
  Matrix.of fun i j => if j = k then b i else M i j

/-- Solve a 3×3 linear system by Cramer's rule; `none` when singular. -/
def solve3 (M : Matrix (Fin 3) (Fin 3) ℚ) (b : Fin 3 → ℚ) : Option (Fin 3 → ℚ) :=
  if det3 M = 0 then none
  else some fun k => det3 (replaceCol M k b) / det3 M

/-- The fitted affine transform: `lon = a0 + a1·px + a2·py` with
`lonCoeffs = ![a0, a1, a2]`, and likewise `latCoeffs` for latitude. -/
structure Affine where
  lonCoeffs : Fin 3 → ℚ
  latCoeffs : Fin 3 → ℚ

instance : DecidableEq Affine := fun a b =>
  decidable_of_iff (a.lonCoeffs = b.lonCoeffs ∧ a.latCoeffs = b.latCoeffs)
    (by cases a; cases b; simp)

/-- Embeds `_compute_affine` in the full-rank regime, where the least-squares
solution returned by `np.linalg.lstsq` is the unique solution of the normal
equations, computed here by Cramer's rule. The `none` branch corresponds to
the `except np.linalg.LinAlgError` handler of the Python code; note that
`np.linalg.lstsq` raises `LinAlgError` only when its SVD fails to converge,
NOT for rank-deficient input (where it returns the minimum-norm solution),
so for singular systems the real function still returns coefficients — that
regime is captured by `IsLstsqSolution` below. -/
def computeAffine (gcps : List Gcp) : Option Affine :=
  match solve3 (ata gcps) (atv gcps (fun g => g.lon)),
        solve3 (ata gcps) (atv gcps (fun g => g.lat)) with
  | some lc, some tc => some ⟨lc, tc⟩
  | _, _ => none

/-- The characterization of every least-squares solution of the system fitted
by `_compute_affine`: it satisfies the normal equations `AᵀA c = Aᵀ b`.
`np.linalg.lstsq` always returns such a vector (the minimum-norm one) for
finite input, rank-deficient or not. -/
def IsLstsqSolution (gcps : List Gcp) (f : Gcp → ℚ) (c : Fin 3 → ℚ) : Prop :=
  (ata gcps).mulVec c = atv gcps f

/-- Rank-one contribution of a single GCP to the normal matrix. -/
def rankOne (g : Gcp) : Matrix (Fin 3) (Fin 3) ℚ :=
  Matrix.of fun i j => designRow g i * designRow g j

/-- The 3×3 matrix whose rows are the design rows of three given GCPs; its
determinant is nonzero exactly when the three pixel positions are
non-collinear. -/
def rowsMatrix (g1 g2 g3 : Gcp) : Matrix (Fin 3) (Fin 3) ℚ :=
  Matrix.of fun i j => designRow (![g1, g2, g3] i) j

/-- Five GCPs whose pixel positions all lie on the line `pixel_y = 0`
(collinear), with `lon = pixel_x` and `lat = 0`: a concrete rank-deficient
input for `_compute_affine`. -/
def collinearGcps : List Gcp :=
  [⟨0, 0, 0, 0⟩, ⟨1, 0, 0, 1⟩, ⟨2, 0, 0, 2⟩, ⟨3, 0, 0, 3⟩, ⟨4, 0, 0, 4⟩]

/-- Five GCPs with non-collinear pixel positions all mapped to the single
geographic point (lon 3, lat 4): their exact affine fit has a singular 2×2
linear block. -/
def gcps5W : List Gcp :=
  [⟨0, 0, 4, 3⟩, ⟨1, 0, 4, 3⟩, ⟨0, 1, 4, 3⟩, ⟨2, 3, 4, 3⟩, ⟨5, 7, 4, 3⟩]

/-- The 4 corners plus center of a 1000×800 raster, with geographic
coordinates generated exactly by `lon = -90 + px/1000`, `lat = 35 - py/1000`
(the worked example of the specification). -/
def c5Gcps : List Gcp :=
  [⟨0, 0, 35, -90⟩, ⟨1000, 0, 35, -89⟩, ⟨1000, 800, 171/5, -89⟩,
   ⟨0, 800, 171/5, -90⟩, ⟨500, 400, 173/5, -179/2⟩]

/-! ## Transform application, bounds, warp
(`georeferencer._pixel_to_geo`, `_compute_bounds`, `_warp_image`) -/

/-- Embeds `_pixel_to_geo`: apply the fitted affine transform to a pixel. -/
def pixelToGeo (aff : Affine) (px py : ℚ) : ℚ × ℚ :=
  (aff.lonCoeffs 0 + aff.lonCoeffs 1 * px + aff.lonCoeffs 2 * py,
   aff.latCoeffs 0 + aff.latCoeffs 1 * px + aff.latCoeffs 2 * py)

/-- Geographic bounds dict returned by `_compute_bounds`. -/
structure GeoBounds where
  north : ℚ
  south : ℚ
  east : ℚ
  west : ℚ
deriving DecidableEq

/-- Embeds `_compute_bounds`: map the four corner pixels through the affine
transform and take coordinate-wise min/max. -/
def computeBounds (width height : ℚ) (aff : Affine) : GeoBounds :=
  let c1 := pixelToGeo aff 0 0
  let c2 := pixelToGeo aff width 0
  let c3 := pixelToGeo aff width height
  let c4 := pixelToGeo aff 0 height
  { north := max (max (max c1.2 c2.2) c3.2) c4.2
    south := min (min (min c1.2 c2.2) c3.2) c4.2
    east := max (max (max c1.1 c2.1) c3.1) c4.1
    west := min (min (min c1.1 c2.1) c3.1) c4.1 }

/-- Determinant of the 2×2 linear block `[[a1, a2], [b1, b2]]` of the affine
transform, whose vanishing is exactly when `np.linalg.inv` raises inside
`_warp_image`. -/
def blockDet (aff : Affine) : ℚ :=
  aff.lonCoeffs 1 * aff.latCoeffs 2 - aff.lonCoeffs 2 * aff.latCoeffs 1

/-- Result of `_warp_image`: either the singular-matrix fallback that saves
the source image unchanged, or a warped output with the computed output
dimensions. -/
inductive WarpResult where
  | passThrough
  | warped (outW outH : ℤ)

/-- Output pixel size `sqrt(a1² + b1²)` of `_warp_image`, with its guard
against zero. -/
noncomputable def pxSizeDeg (aff : Affine) : ℝ :=
  if Real.sqrt ((aff.lonCoeffs 1 : ℝ) ^ 2 + (aff.latCoeffs 1 : ℝ) ^ 2) = 0 then 1/1000000
  else Real.sqrt ((aff.lonCoeffs 1 : ℝ) ^ 2 + (aff.latCoeffs 1 : ℝ) ^ 2)

/-- Output width of `_warp_image`: bounds span over pixel size, clamped to
[100, 8000]. -/
noncomputable def warpOutW (aff : Affine) (bounds : GeoBounds) : ℤ :=
  max 100 (min 8000 (pyIntR (((bounds.east - bounds.west : ℚ) : ℝ) / pxSizeDeg aff)))

/-- Output height of `_warp_image`, as `warpOutW`. -/
noncomputable def warpOutH (aff : Affine) (bounds : GeoBounds) : ℤ :=
  max 100 (min 8000 (pyIntR (((bounds.north - bounds.south : ℚ) : ℝ) / pxSizeDeg aff)))

/-- Embeds the control flow of `_warp_image`: when the 2×2 linear block is
singular (`np.linalg.inv` raises `LinAlgError`), the source image is saved
unchanged; otherwise the inverse-mapped warp runs. -/
noncomputable def warpImage (aff : Affine) (bounds : GeoBounds) : WarpResult :=
  if blockDet aff = 0 then .passThrough
  else .warped (warpOutW aff bounds) (warpOutH aff bounds)

/-! ## Residuals (`georeferencer.haversine`, `_compute_residuals`) -/

/-- Degree-to-radian conversion `math.radians`. -/
noncomputable def radians (d : ℝ) : ℝ := d * Real.pi / 180

/-- Embeds `math.atan2` on the reals. -/
noncomputable def atan2 (y x : ℝ) : ℝ :=
  if 0 < x then Real.arctan (y / x)
  else if x < 0 ∧ 0 ≤ y then Real.arctan (y / x) + Real.pi
  else if x < 0 then Real.arctan (y / x) - Real.pi
  else if 0 < y then Real.pi / 2
  else if y < 0 then -(Real.pi / 2)
  else 0

/-- Earth radius constant (meters) from `georeferencer.haversine`. -/
def EARTH_R : ℝ := 6371000

/-- Embeds `haversine`: great-circle distance in meters. -/
noncomputable def haversine (lat1 lon1 lat2 lon2 : ℝ) : ℝ :=
  let phi1 := radians lat1
  let phi2 := radians lat2
  let dphi := radians (lat2 - lat1)
  let dlam := radians (lon2 - lon1)
  let a := Real.sin (dphi / 2) ^ 2 +
    Real.cos phi1 * Real.cos phi2 * Real.sin (dlam / 2) ^ 2
  EARTH_R * 2 * atan2 (Real.sqrt a) (Real.sqrt (1 - a))

/-- Residual of one GCP under the fitted transform: haversine distance from
the GCP's actual coordinate to the predicted one. -/
noncomputable def residualError (aff : Affine) (g : Gcp) : ℝ :=
  haversine (g.lat : ℝ) (g.lon : ℝ)
    ((pixelToGeo aff g.pixel_x g.pixel_y).2 : ℝ)
    ((pixelToGeo aff g.pixel_x g.pixel_y).1 : ℝ)

/-- Per-point residual list of `_compute_residuals` (each rounded to one
decimal, as `round(error_m, 1)`). -/
noncomputable def perPointResiduals (aff : Affine) (gcps : List Gcp) : List ℝ :=
  gcps.map (fun g => round1R (residualError aff g))

/-- RMS residual of `_compute_residuals`: `sqrt(sum_sq / n)` over the
UNROUNDED per-point errors (0 for an empty list), rounded to one decimal. -/
noncomputable def rmsError (aff : Affine) (gcps : List Gcp) : ℝ :=
  round1R (if gcps = [] then 0
    else Real.sqrt (((gcps.map (fun g => residualError aff g ^ 2)).sum) / (gcps.length : ℝ)))

/-! ## Full pipeline (`georeferencer.run_georeferencing`) -/

/-- Outcome of `run_georeferencing`: the two error dicts reachable from its
pure numeric core, or the success dict. (`affineFailed` mirrors the
`affine is None` branch, which `np.linalg.lstsq`'s actual behavior on finite
input never triggers; see `computeAffine`.) -/
inductive GeorefOutcome where
  | tooFewGcps
  | affineFailed
  | success (bounds : GeoBounds) (warp : WarpResult) (residuals : List ℝ) (rms : ℝ)

/-- Embeds the numeric core of `run_georeferencing`: require at least 5
GCPs, fit the affine transform, compute bounds, warp (with the singular
fallback inside `warpImage`), and report residuals; computation errors in
the warp never surface as failures. -/
noncomputable def runGeoreferencing (gcps : List Gcp) (width height : ℚ) : GeorefOutcome :=
  if gcps.length < 5 then .tooFewGcps
  else
    match computeAffine gcps with
    | none => .affineFailed
    | some aff =>
      .success (computeBounds width height aff) (warpImage aff (computeBounds width height aff))
        (perPointResiduals aff gcps) (rmsError aff gcps)

/-! ## Confidence scoring (`feature_matcher._compute_confidence` and
`vision_matcher._compute_confidence`) -/

/-- Constant `GRID_SIZE = 5` from `feature_matcher.py`. -/
def GRID_SIZE : ℕ := 5

/-- Embeds `feature_matcher._compute_confidence`: weighted blend of inlier
count (saturating at 100), inlier ratio, populated-cell fraction and
normalized average descriptor distance, clipped to [0, 1]. The unused
`img_shape` parameter of the Python function is dropped. -/
def computeConfidence (inlierCount totalMatches : ℕ) (distances : List ℚ)
    (gcps : List Gcp) : ℚ :=
  let countScore := min ((inlierCount : ℚ) / 100) 1
  let ratioScore := if 0 < totalMatches then (inlierCount : ℚ) / (totalMatches : ℚ) else 0
  let distributionScore := (gcps.length : ℚ) / ((GRID_SIZE : ℚ) * (GRID_SIZE : ℚ))
  let distScore :=
    if distances = [] then 0
    else max 0 (1 - (distances.sum / (distances.length : ℚ)) / 200)
  clamp01 (3/10 * countScore + 2/10 * ratioScore + 3/10 * distributionScore + 2/10 * distScore)

/-- One parsed landmark match from the vision-model response
(`vision_matcher._parse_vision_response`): pixel coordinates in the two
downsampled image spaces plus a qualitative confidence tier. -/
structure VisionMatch where
  aerial_x : ℚ
  aerial_y : ℚ
  satellite_x : ℚ
  satellite_y : ℚ
  confidence : String
deriving DecidableEq

/-- Constant `TARGET_GCPS = 12` from `vision_matcher.py`. -/
def TARGET_GCPS : ℕ := 12

/-- Number of distinct quadrants (relative to the matches' bounding-box
center) containing at least one match, as in factor 3 of
`vision_matcher._compute_confidence`. -/
def quadrantCount (ms : List VisionMatch) : ℕ :=
  let xs := ms.map (fun m => m.aerial_x)
  let ys := ms.map (fun m => m.aerial_y)
  let cx := ((xs.foldr min 0 : ℚ) + xs.foldr max 0) / 2
  let cy := ((ys.foldr min 0 : ℚ) + ys.foldr max 0) / 2
  ((ms.map (fun m => (decide (m.aerial_x < cx), decide (m.aerial_y < cy)))).toFinset).card

/-- Embeds `vision_matcher._compute_confidence`: 0 for no matches, otherwise
a weighted blend of match count (saturating at `TARGET_GCPS`), tier-weighted
fraction, quadrant coverage and the clamped self-reported confidence,
clipped to [0, 1]. -/
def visionConfidence (ms : List VisionMatch) (claudeConfidence : ℚ) : ℚ :=
  if ms = [] then 0
  else
    let countScore := min ((ms.length : ℚ) / (TARGET_GCPS : ℚ)) 1
    let high := (ms.countP (fun m => m.confidence = "high") : ℚ)
    let med := (ms.countP (fun m => m.confidence = "medium") : ℚ)
    let confScore := (high * 1 + med * (1/2)) / (ms.length : ℚ)
    let distScore :=
      if 2 ≤ ms.length then (quadrantCount ms : ℚ) / 4 else 1/4
    let claudeScore := clamp01 claudeConfidence
    clamp01 (25/100 * countScore + 20/100 * confScore + 25/100 * distScore
      + 30/100 * claudeScore)

/-! ## Web-Mercator tile math (`tile_downloader`) -/

/-- Tile count per axis `n = 2 ** zoom` of `_lat_lon_to_tile`. -/
def TILE_N (zoom : ℕ) : ℤ := 2 ^ zoom

/-- The clamping `max(0, min(n - 1, v))` of `_lat_lon_to_tile`. -/
def clampTile (zoom : ℕ) (v : ℤ) : ℤ := max 0 (min (TILE_N zoom - 1) v)

/-- The argument `tan(lat_rad) + 1/cos(lat_rad)` of the logarithm in
`_lat_lon_to_tile`. Note `math.log` raises `ValueError` when this is not
positive (latitudes with nonpositive cosine); every theorem below works in
a regime where it is positive, so the junk value of `Real.log` on
nonpositive input is never relied upon. -/
noncomputable def mercFactor (lat : ℝ) : ℝ :=
  Real.tan (radians lat) + 1 / Real.cos (radians lat)

/-- Embeds the x component of `_lat_lon_to_tile`:
`int((lon + 180)/360 * n)`, clamped. -/
noncomputable def tileX (lon : ℝ) (zoom : ℕ) : ℤ :=
  clampTile zoom (pyIntR ((lon + 180) / 360 * ((TILE_N zoom : ℤ) : ℝ)))

/-- Embeds the y component of `_lat_lon_to_tile`:
`int((1 - log(tan + sec)/pi)/2 * n)`, clamped. -/
noncomputable def tileY (lat : ℝ) (zoom : ℕ) : ℤ :=
  clampTile zoom (pyIntR ((1 - Real.log (mercFactor lat) / Real.pi) / 2 * ((TILE_N zoom : ℤ) : ℝ)))

/-- A WGS84 bounding box with real coordinates, as consumed by
`download_reference_image`. -/
structure BBoxR where
  north : ℝ
  south : ℝ
  east : ℝ
  west : ℝ

/-- The `num_tiles_x = x_max - x_min + 1` of `download_reference_image`
(corner tiles from `(north, west)` and `(south, east)`). -/
noncomputable def numTilesX (b : BBoxR) (zoom : ℕ) : ℤ :=
  tileX b.east zoom - tileX b.west zoom + 1

/-- The `num_tiles_y = y_max - y_min + 1` of `download_reference_image`. -/
noncomputable def numTilesY (b : BBoxR) (zoom : ℕ) : ℤ :=
  tileY b.south zoom - tileY b.north zoom + 1

/-- The `total_tiles` product of `download_reference_image`. -/
noncomputable def totalTiles (b : BBoxR) (zoom : ℕ) : ℤ :=
  numTilesX b zoom * numTilesY b zoom

/-- The two `ValueError` guards of `download_reference_image`, in source
order: more than 400 tiles, then fewer than 1 tile; otherwise the download
loop is entered. -/
inductive TileCheck where
  | tooMany
  | tooSmall
  | proceed
deriving DecidableEq

/-- Embeds the guard block of `download_reference_image` (lines 48-54). -/
noncomputable def downloadCheck (b : BBoxR) (zoom : ℕ) : TileCheck :=
  if 400 < totalTiles b zoom then .tooMany
  else if totalTiles b zoom < 1 then .tooSmall
  else .proceed

/-- A bounding box with both spans exactly 0.5° (the maximum accepted by
validation), centered on the equator at longitude -90.25..-89.75. -/
noncomputable def c1Box : BBoxR := ⟨1/4, -1/4, -359/4, -361/4⟩

/-- A bounding box with `north > south` and `east > west` whose north
latitude (360°) lies outside (-90°, 90°), where the Mercator formula is not
monotone. -/
noncomputable def c10Box : BBoxR := ⟨360, 45, -90, -90001/1000⟩

/-! ## Vision-match filtering (`vision_matcher.auto_match`, stages 7-8) -/

/-- Constant `MAX_DIM = 2000` from `vision_matcher.py`. -/
def VISION_MAX_DIM : ℕ := 2000

/-- Dimension and inverse-scale computation of `_prepare_aerial` /
`_prepare_reference`: when the longest side exceeds `MAX_DIM` the image is
resized to `int(side * scale)` with `scale = MAX_DIM / max(w, h)` and the
returned inverse `1.0 / scale` maps downsampled pixels back to original
ones (the float divisions are modelled exactly over `ℚ`). -/
def prepareDims (w h : ℕ) : ℤ × ℤ × ℚ :=
  if VISION_MAX_DIM < max w h then
    ((pyIntQ ((w : ℚ) * ((VISION_MAX_DIM : ℚ) / (max w h : ℚ)))),
     (pyIntQ ((h : ℚ) * ((VISION_MAX_DIM : ℚ) / (max w h : ℚ)))),
     (max w h : ℚ) / (VISION_MAX_DIM : ℚ))
  else ((w : ℤ), (h : ℤ), 1)

/-- The filter of `auto_match` stage 7: drop a match when its confidence
tier is "low", or when its aerial coordinates leave `[0, aw] × [0, ah]`, or
when its satellite coordinates leave `[0, refW] × [0, refH]` (all bounds
inclusive, in the downsampled image spaces). -/
def keepMatch (m : VisionMatch) (aw ah refW refH : ℚ) : Bool :=
  decide (m.confidence ≠ "low") &&
    decide (0 ≤ m.aerial_x ∧ m.aerial_x ≤ aw ∧ 0 ≤ m.aerial_y ∧ m.aerial_y ≤ ah) &&
    decide (0 ≤ m.satellite_x ∧ m.satellite_x ≤ refW ∧ 0 ≤ m.satellite_y ∧ m.satellite_y ≤ refH)

/-- Conversion of one kept match to a GCP: rescale the aerial pixel to the
original raster by the inverse downsample factor; convert the satellite
pixel through the (downsample-adjusted) reference geo-transform. -/
def gcpOfMatch (m : VisionMatch) (oLon oLat adjLon adjLat invScale : ℚ) : Gcp :=
  { pixel_x := round1Q (m.aerial_x * invScale)
    pixel_y := round1Q (m.aerial_y * invScale)
    lat := round6Q (oLat + m.satellite_y * adjLat)
    lon := round6Q (oLon + m.satellite_x * adjLon) }

/-- The GCP list built by the stage 7-8 loop of `vision_matcher.auto_match`. -/
def gcpsFromMatches (ms : List VisionMatch) (aw ah refW refH : ℚ)
    (oLon oLat adjLon adjLat invScale : ℚ) : List Gcp :=
  (ms.filter (fun m => keepMatch m aw ah refW refH)).map
    (fun m => gcpOfMatch m oLon oLat adjLon adjLat invScale)

/-- A concrete high-confidence, in-bounds vision match. -/
def visionM1 : VisionMatch := ⟨100, 200, 50, 60, "high"⟩

/-! ## Spatially-distributed GCP selection (`feature_matcher._extract_gcps`) -/

/-- One inlier correspondence as consumed by `_extract_gcps`: source pixel,
reference pixel, and descriptor distance (`⊤` models the `float('inf')`
default used when the distances list is shorter than the points list). -/
structure Corr where
  src : ℚ × ℚ
  dst : ℚ × ℚ
  dist : WithTop ℚ
deriving DecidableEq

/-- The parallel arrays `src_pts`, `dst_pts`, `distances` of `_extract_gcps`
zipped by index, exactly as its `for i in range(len(src_pts))` loop reads
them. -/
def corrEntries (srcPts dstPts : List (ℚ × ℚ)) (distances : List ℚ) : List Corr :=
  (List.range srcPts.length).map fun i =>
    { src := srcPts.getD i (0, 0)
      dst := dstPts.getD i (0, 0)
      dist := ((distances[i]?).map (fun d => (d : WithTop ℚ))).getD ⊤ }

/-- Grid cell `(row, col)` of a correspondence:
`min(int(pt/cell_size), GRID_SIZE - 1)` on each axis, with
`cell_size = h / GRID_SIZE` (resp. `w`). -/
def corrCell (h w : ℚ) (c : Corr) : ℤ × ℤ :=
  (min (pyIntQ (c.src.2 / (h / (GRID_SIZE : ℚ)))) ((GRID_SIZE : ℤ) - 1),
   min (pyIntQ (c.src.1 / (w / (GRID_SIZE : ℚ)))) ((GRID_SIZE : ℤ) - 1))

/-- One iteration of the `grid` dict update of `_extract_gcps`: insert the
correspondence when its cell is new (dict insertion appends), replace the
stored entry when the new descriptor distance is strictly smaller. -/
def gridStep (h w : ℚ) (s : List ((ℤ × ℤ) × Corr)) (c : Corr) : List ((ℤ × ℤ) × Corr) :=
  match s.find? (fun p => decide (p.1 = corrCell h w c)) with
  | none => s ++ [(corrCell h w c, c)]
  | some p =>
    if c.dist < p.2.dist
    then s.map (fun q => if q.1 = corrCell h w c then (corrCell h w c, c) else q)
    else s

/-- The populated `grid` dict of `_extract_gcps` after processing all
correspondences, as an insertion-ordered association list. -/
def buildGrid (h w : ℚ) (cs : List Corr) : List ((ℤ × ℤ) × Corr) :=
  cs.foldl (gridStep h w) []

/-- Conversion of one retained correspondence to a GCP (scale the source
pixel back by the inverse downsample factor, convert the reference pixel
through the geo-transform, round as the code does). -/
def gcpOfCorr (invScale oLon oLat szLon szLat : ℚ) (c : Corr) : Gcp :=
  { pixel_x := round1Q (c.src.1 * invScale)
    pixel_y := round1Q (c.src.2 * invScale)
    lat := round6Q (oLat + c.dst.2 * szLat)
    lon := round6Q (oLon + c.dst.1 * szLon) }

/-- Embeds `_extract_gcps`: one GCP per populated 5×5 grid cell, keeping the
correspondence with the lowest descriptor distance in each cell. -/
def extractGcps (srcPts dstPts : List (ℚ × ℚ)) (distances : List ℚ) (h w : ℚ)
    (invScale oLon oLat szLon szLat : ℚ) : List Gcp :=
  (buildGrid h w (corrEntries srcPts dstPts distances)).map
    (fun p => gcpOfCorr invScale oLon oLat szLon szLat p.2)

end MapSync

namespace MapSync

/-! ## Theorems -/

/-- Helper: `clamp01` always lands in the unit interval. -/
theorem clamp01_mem (x : ℚ) : 0 ≤ clamp01 x ∧ clamp01 x ≤ 1 := by
  unfold clamp01
  constructor
  · exact le_max_left 0 _
  · exact max_le (by norm_num) (min_le_left 1 x)

/-- C8: both confidence-scoring functions always return a value within
[0, 1]: the classical weighted blend of `feature_matcher._compute_confidence`
and the vision-strategy blend of `vision_matcher._compute_confidence` are
clipped to the unit interval for all inputs (in particular for all valid
counts, distances, GCP lists and tiers). -/
theorem confidence_scores_in_unit_interval :
    (∀ (inlierCount totalMatches : ℕ) (distances : List ℚ) (gcps : List Gcp),
      0 ≤ computeConfidence inlierCount totalMatches distances gcps ∧
        computeConfidence inlierCount totalMatches distances gcps ≤ 1) ∧
    (∀ (ms : List VisionMatch) (claudeConfidence : ℚ),
      0 ≤ visionConfidence ms claudeConfidence ∧
        visionConfidence ms claudeConfidence ≤ 1) := by
  constructor
  · intro inlierCount totalMatches distances gcps
    exact clamp01_mem _
  · intro ms claudeConfidence
    unfold visionConfidence
    by_cases h : ms = []
    · simp [h]
    · simp only [if_neg h]
      exact clamp01_mem _

/-- C3 counterexample: a bounding box whose latitude span (1/2000 of a
degree) is below `MIN_SPAN` but whose longitude span (0.1 degree) is not is
ACCEPTED by the validation block of `run_auto_georeferencing` and proceeds
to the reference-tile fetch, contradicting the claim that a box is rejected
whenever either axis span is below `MIN_SPAN`. -/
theorem one_small_span_box_reaches_fetch :
    validateBounds ⟨1/2000, 0, 1/10, 0⟩ = .accepted ∧
      autoGeoreferencingStage ⟨1/2000, 0, 1/10, 0⟩ = .fetchReference ⟨1/2000, 0, 1/10, 0⟩ := by
  have hv : validateBounds ⟨1/2000, 0, 1/10, 0⟩ = .accepted := by
    unfold validateBounds
    norm_num [MAX_SPAN, MIN_SPAN]
  exact ⟨hv, by unfold autoGeoreferencingStage; rw [hv]⟩

/-- Helper: characterization of the accepted branch of `validateBounds`. -/
theorem validateBounds_accepted_iff (b : BBoxQ) :
    validateBounds b = .accepted ↔
      (0 < b.north - b.south ∧ 0 < b.east - b.west ∧
        b.north - b.south ≤ MAX_SPAN ∧ b.east - b.west ≤ MAX_SPAN ∧
        (MIN_SPAN ≤ b.north - b.south ∨ MIN_SPAN ≤ b.east - b.west)) := by
  unfold validateBounds
  split_ifs with h1 h2 h3
  · constructor
    · intro h
      cases h
    · intro h
      rcases h1 with h1 | h1
      · exact absurd h.1 (by linarith)
      · exact absurd h.2.1 (by linarith)
  · constructor
    · intro h
      cases h
    · intro h
      rcases h2 with h2 | h2
      · exact absurd h.2.2.1 (by linarith)
      · exact absurd h.2.2.2.1 (by linarith)
  · constructor
    · intro h
      cases h
    · intro h
      rcases h.2.2.2.2 with h4 | h4
      · exact absurd h3.1 (by linarith)
      · exact absurd h3.2 (by linarith)
  · push_neg at h1 h2 h3
    simp only [true_iff]
    refine ⟨by linarith [h1.1], by linarith [h1.2], h2.1, h2.2, ?_⟩
    by_cases hml : MIN_SPAN ≤ b.north - b.south
    · exact Or.inl hml
    · exact Or.inr (h3 (by linarith))

/-- C3 (amended): `run_auto_georeferencing` reaches the tile fetch exactly
when both spans are positive, neither span exceeds `MAX_SPAN`, and at least
one span is at least `MIN_SPAN`; in particular a box is rejected before any
network call when either span exceeds `MAX_SPAN`, but a sub-`MIN_SPAN` span
causes rejection only when BOTH spans are below `MIN_SPAN`. -/
theorem bounds_validation_characterization (b : BBoxQ) :
    autoGeoreferencingStage b = .fetchReference b ↔
      (0 < b.north - b.south ∧ 0 < b.east - b.west ∧
        b.north - b.south ≤ MAX_SPAN ∧ b.east - b.west ≤ MAX_SPAN ∧
        (MIN_SPAN ≤ b.north - b.south ∨ MIN_SPAN ≤ b.east - b.west)) := by
  rw [← validateBounds_accepted_iff]
  unfold autoGeoreferencingStage
  cases hv : validateBounds b <;> simp [hv]

/-- C2 counterexample: in a two-tile run where one tile answers 404 and the
other succeeds with 200, the 404 tile is counted as a failure (1 of 2 tiles,
above the 20% threshold) and `download_reference_image` aborts — so tiles
answered 404 DO count toward the failed-tile fraction, contrary to the
claim. -/
theorem notFound_tile_triggers_abort :
    downloadTile [.status 404] = none ∧
      downloadTile [.status 200] = some () ∧
      failuresCount [[.status 404], [.status 200]] = 1 ∧
      abortsDownload [[.status 404], [.status 200]] = true := by
  refine ⟨rfl, rfl, rfl, ?_⟩
  have h1 : failuresCount [[.status 404], [.status 200]] = 1 := rfl
  simp only [abortsDownload, h1, decide_eq_true_eq]
  norm_num

/-- Helper: a `Fin 3` built from the literal 0 is the literal. -/
theorem fin3_mk_zero (h : 0 < 3) : (Fin.mk 0 h : Fin 3) = 0 := rfl

/-- Helper: a `Fin 3` built from the literal 1 is the literal. -/
theorem fin3_mk_one (h : 1 < 3) : (Fin.mk 1 h : Fin 3) = 1 := rfl

/-- Helper: a `Fin 3` built from the literal 2 is the literal. -/
theorem fin3_mk_two (h : 2 < 3) : (Fin.mk 2 h : Fin 3) = 2 := rfl

/-- Helper: `det3` agrees with the Mathlib determinant. -/
theorem det3_eq_det (M : Matrix (Fin 3) (Fin 3) ℚ) : det3 M = M.det := by
  rw [Matrix.det_fin_three]
  unfold det3
  ring

/-- Helper: when the system matrix is nonsingular, `solve3` recovers the
unique solution (Cramer's rule). -/
theorem solve3_unique (M : Matrix (Fin 3) (Fin 3) ℚ) (v : Fin 3 → ℚ)
    (hd : det3 M ≠ 0) : solve3 M (M.mulVec v) = some v := by
  unfold solve3
  rw [if_neg hd]
  congr 1
  funext k
  rw [div_eq_iff hd]
  fin_cases k <;>
    · simp only [replaceCol, det3, Matrix.of_apply, Matrix.mulVec, Matrix.dotProduct,
        Fin.sum_univ_three, Fin.ext_iff, Fin.val_zero, Fin.val_one, Fin.val_two,
        fin3_mk_zero, fin3_mk_one, fin3_mk_two]
      norm_num
      ring

/-- Helper: the normal matrix of a cons is a rank-one update. -/
theorem ata_cons (g : Gcp) (L : List Gcp) : ata (g :: L) = rankOne g + ata L := by
  funext i j
  simp [ata, rankOne, List.map_cons, List.sum_cons]

/-- Helper: the right-hand side of a cons decomposes pointwise. -/
theorem atv_cons (g : Gcp) (L : List Gcp) (f : Gcp → ℚ) (i : Fin 3) :
    atv (g :: L) f i = designRow g i * f g + atv L f i := by
  simp [atv, List.map_cons, List.sum_cons]

/-- Helper: if an observation is an exact affine function of the pixels,
its coefficient vector satisfies the normal equations. -/
theorem ata_mulVec_fit (L : List Gcp) (f : Gcp → ℚ) (c : Fin 3 → ℚ)
    (hfit : ∀ g ∈ L, f g = c 0 + c 1 * g.pixel_x + c 2 * g.pixel_y) :
    (ata L).mulVec c = atv L f := by
  induction L with
  | nil =>
    funext i
    simp [ata, atv, Matrix.mulVec, Matrix.dotProduct]
  | cons g L ih =>
    have hg := hfit g (List.mem_cons_self g L)
    have ihh := ih (fun g hg => hfit g (List.mem_cons_of_mem _ hg))
    rw [ata_cons, Matrix.add_mulVec, ihh]
    funext i
    simp only [Pi.add_apply, atv_cons]
    have hr : (rankOne g).mulVec c i = designRow g i * f g := by
      simp only [rankOne, Matrix.mulVec, Matrix.dotProduct, Matrix.of_apply,
        Fin.sum_univ_three, hg]
      simp only [designRow, Matrix.cons_val_zero, Matrix.cons_val_one, Matrix.head_cons,
        Matrix.cons_val_two, Matrix.tail_cons]
      ring
    rw [hr]

/-- Helper: the quadratic form of the normal matrix is the sum of squared
design-row dot products. -/
theorem dot_mulVec_sum_sq (L : List Gcp) (v : Fin 3 → ℚ) :
    Matrix.dotProduct v ((ata L).mulVec v) =
      (L.map (fun g => (Matrix.dotProduct (designRow g) v) ^ 2)).sum := by
  induction L with
  | nil => simp [ata, Matrix.mulVec, Matrix.dotProduct]
  | cons g L ih =>
    rw [ata_cons, Matrix.add_mulVec, Matrix.dotProduct_add, ih, List.map_cons,
      List.sum_cons]
    have hr : Matrix.dotProduct v ((rankOne g).mulVec v) =
        (Matrix.dotProduct (designRow g) v) ^ 2 := by
      simp only [rankOne, Matrix.mulVec, Matrix.dotProduct, Matrix.of_apply,
        Fin.sum_univ_three]
      ring
    rw [hr]

/-- Helper: a vanishing sum of rational squares has all terms zero. -/
theorem sum_sq_zero (L : List Gcp) (q : Gcp → ℚ)
    (h : (L.map (fun g => q g ^ 2)).sum = 0) : ∀ g ∈ L, q g = 0 := by
  induction L with
  | nil => intro g hg; cases hg
  | cons a L ih =>
    simp only [List.map_cons, List.sum_cons] at h
    have hnn : 0 ≤ (L.map (fun g => q g ^ 2)).sum := by
      apply List.sum_nonneg
      intro x hx
      obtain ⟨g, _, rfl⟩ := List.mem_map.mp hx
      positivity
    have ha : q a ^ 2 = 0 := by nlinarith [sq_nonneg (q a)]
    intro g hg
    rcases List.mem_cons.mp hg with rfl | hg
    · exact pow_eq_zero_iff (by norm_num) |>.mp ha
    · exact ih (by linarith) g hg

/-- Helper: a nonsingular 3×3 system has trivial kernel. -/
theorem mulVec_zero_unique (M : Matrix (Fin 3) (Fin 3) ℚ) (v : Fin 3 → ℚ)
    (hd : det3 M ≠ 0) (hv : M.mulVec v = 0) : v = 0 := by
  rw [det3_eq_det] at hd
  have hunit : IsUnit M := (Matrix.isUnit_iff_isUnit_det M).mpr (isUnit_iff_ne_zero.mpr hd)
  have hinj := Matrix.mulVec_injective_iff_isUnit.mpr hunit
  apply hinj
  rw [hv, Matrix.mulVec_zero]

/-- Helper: three non-collinear pixel positions make the normal matrix of
the whole list nonsingular. -/
theorem noncollinear_ata_det (L : List Gcp) (g1 g2 g3 : Gcp)
    (h1 : g1 ∈ L) (h2 : g2 ∈ L) (h3 : g3 ∈ L)
    (hnc : det3 (rowsMatrix g1 g2 g3) ≠ 0) : det3 (ata L) ≠ 0 := by
  intro hz
  rw [det3_eq_det] at hz
  obtain ⟨v, hv0, hvz⟩ := Matrix.exists_mulVec_eq_zero_iff.mpr hz
  have hdot : Matrix.dotProduct v ((ata L).mulVec v) = 0 := by
    rw [hvz, Matrix.dotProduct_zero]
  rw [dot_mulVec_sum_sq] at hdot
  have hall := sum_sq_zero L (fun g => Matrix.dotProduct (designRow g) v) hdot
  have hM : (rowsMatrix g1 g2 g3).mulVec v = 0 := by
    funext i
    fin_cases i <;>
      simpa [rowsMatrix, Matrix.mulVec, Matrix.dotProduct, Matrix.of_apply] using
        (by first
          | exact hall g1 h1
          | exact hall g2 h2
          | exact hall g3 h3 : Matrix.dotProduct (designRow _) v = 0)
  exact hv0 (mulVec_zero_unique _ v hnc hM)

/-- Helper: with a nonsingular normal matrix and exactly consistent data,
`_compute_affine` returns the generating coefficients. -/
theorem computeAffine_of_fit (L : List Gcp) (A B : Fin 3 → ℚ)
    (hd : det3 (ata L) ≠ 0)
    (hlon : ∀ g ∈ L, g.lon = A 0 + A 1 * g.pixel_x + A 2 * g.pixel_y)
    (hlat : ∀ g ∈ L, g.lat = B 0 + B 1 * g.pixel_x + B 2 * g.pixel_y) :
    computeAffine L = some ⟨A, B⟩ := by
  have hA := ata_mulVec_fit L (fun g => g.lon) A hlon
  have hB := ata_mulVec_fit L (fun g => g.lat) B hlat
  unfold computeAffine
  rw [← hA, ← hB, solve3_unique _ _ hd, solve3_unique _ _ hd]

/-- Helper: `atan2 0 1 = 0`. -/
theorem atan2_zero_one : atan2 0 1 = 0 := by
  unfold atan2
  rw [if_pos one_pos]
  norm_num

/-- Helper: the haversine distance from a point to itself vanishes. -/
theorem haversine_self (a b : ℝ) : haversine a b a b = 0 := by
  unfold haversine
  simp [radians, atan2_zero_one]

/-- Helper: rounding zero to one decimal gives zero. -/
theorem round1R_zero : round1R 0 = 0 := by
  have h0 : ((0 : ℝ) * 10) = 0 := by norm_num
  unfold round1R pyRoundR
  rw [h0]
  norm_num

/-- C4: for five GCPs whose pixel positions are collinear (all on the line
`pixel_y = 0`), the least-squares system of `_compute_affine` is singular,
yet solutions of the normal equations exist for both coordinates —
`np.linalg.lstsq` returns the minimum-norm such solution instead of raising
`LinAlgError`, so `_compute_affine` returns coefficients (contradicting its
docstring's "None if the system is singular") and `run_georeferencing` does
NOT fail with a computation error. -/
theorem collinear_gcps_lstsq_still_solvable :
    (∀ g ∈ collinearGcps, g.pixel_y = 0) ∧
      det3 (ata collinearGcps) = 0 ∧
      IsLstsqSolution collinearGcps (fun g => g.lon) ![0, 1, 0] ∧
      IsLstsqSolution collinearGcps (fun g => g.lat) ![0, 0, 0] ∧
      5 ≤ collinearGcps.length := by
  refine ⟨?_, ?_, ?_, ?_, by simp [collinearGcps]⟩
  · intro g hg
    fin_cases hg <;> rfl
  · norm_num [det3, ata, collinearGcps, designRow]
  · show (ata collinearGcps).mulVec ![0, 1, 0] = atv collinearGcps (fun g => g.lon)
    apply ata_mulVec_fit
    intro g hg
    fin_cases hg <;> norm_num [collinearGcps]
  · show (ata collinearGcps).mulVec ![0, 0, 0] = atv collinearGcps (fun g => g.lat)
    apply ata_mulVec_fit
    intro g hg
    fin_cases hg <;> norm_num [collinearGcps]

/-- C5: for GCPs whose pixel positions contain a non-collinear triple and
whose coordinates are generated exactly by an affine transform, the
least-squares fit of `_compute_affine` recovers exactly those coefficients
(in exact arithmetic), and every per-GCP haversine residual as well as the
RMS error of `_compute_residuals` is 0. -/
theorem affine_fit_exact_on_consistent_gcps (gcps : List Gcp) (A B : Fin 3 → ℚ)
    (_hlen : 3 ≤ gcps.length)
    (hfit : ∀ g ∈ gcps, g.lon = A 0 + A 1 * g.pixel_x + A 2 * g.pixel_y ∧
      g.lat = B 0 + B 1 * g.pixel_x + B 2 * g.pixel_y)
    (hnc : ∃ g1 ∈ gcps, ∃ g2 ∈ gcps, ∃ g3 ∈ gcps, det3 (rowsMatrix g1 g2 g3) ≠ 0) :
    computeAffine gcps = some ⟨A, B⟩ ∧
      (∀ r ∈ perPointResiduals ⟨A, B⟩ gcps, r = 0) ∧
      rmsError ⟨A, B⟩ gcps = 0 := by
  obtain ⟨g1, h1, g2, h2, g3, h3, hnc3⟩ := hnc
  have hd := noncollinear_ata_det gcps g1 g2 g3 h1 h2 h3 hnc3
  have hres : ∀ g ∈ gcps, residualError ⟨A, B⟩ g = 0 := by
    intro g hg
    have hint : pixelToGeo ⟨A, B⟩ g.pixel_x g.pixel_y = (g.lon, g.lat) := by
      unfold pixelToGeo
      exact Prod.ext ((hfit g hg).1).symm ((hfit g hg).2).symm
    unfold residualError
    rw [hint]
    exact haversine_self _ _
  refine ⟨computeAffine_of_fit gcps A B hd (fun g hg => (hfit g hg).1)
    (fun g hg => (hfit g hg).2), ?_, ?_⟩
  · intro r hr
    obtain ⟨g, hg, rfl⟩ := List.mem_map.mp hr
    rw [hres g hg, round1R_zero]
  · have hne : gcps ≠ [] := List.ne_nil_of_mem h1
    unfold rmsError
    rw [if_neg hne]
    have hsum : (gcps.map (fun g => residualError ⟨A, B⟩ g ^ 2)).sum = 0 := by
      apply List.sum_eq_zero
      intro x hx
      obtain ⟨g, hg, rfl⟩ := List.mem_map.mp hx
      rw [hres g hg]
      norm_num
    rw [hsum]
    norm_num [round1R_zero]

/-- C5 witness: the specification's worked example — corners plus center of
a 1000×800 raster with coordinates generated by `lon = -90 + px/1000`,
`lat = 35 - py/1000` — is recovered exactly with zero residuals. -/
theorem affine_fit_exact_on_consistent_gcps_witness :
    (3 ≤ c5Gcps.length) ∧
      computeAffine c5Gcps = some ⟨![-90, 1/1000, 0], ![35, 0, -1/1000]⟩ ∧
      (∀ r ∈ perPointResiduals ⟨![-90, 1/1000, 0], ![35, 0, -1/1000]⟩ c5Gcps, r = 0) ∧
      rmsError ⟨![-90, 1/1000, 0], ![35, 0, -1/1000]⟩ c5Gcps = 0 := by
  have hlen : 3 ≤ c5Gcps.length := by simp [c5Gcps]
  have h := affine_fit_exact_on_consistent_gcps c5Gcps ![-90, 1/1000, 0] ![35, 0, -1/1000]
    hlen
    (by
      intro g hg
      fin_cases hg <;> constructor <;> norm_num [c5Gcps])
    (by
      refine ⟨⟨0, 0, 35, -90⟩, by norm_num [c5Gcps], ⟨1000, 0, 35, -89⟩, by norm_num [c5Gcps],
        ⟨1000, 800, 171/5, -89⟩, by norm_num [c5Gcps], ?_⟩
      norm_num [det3, rowsMatrix, designRow])
  exact ⟨hlen, h.1, h.2.1, h.2.2⟩

/-- C7: when the fitted transform's 2×2 linear block is singular,
`_warp_image` falls back to writing the source image unchanged and
`run_georeferencing` still returns a success result. -/
theorem singular_block_warp_passthrough (gcps : List Gcp) (width height : ℚ)
    (aff : Affine) (h5 : 5 ≤ gcps.length)
    (haff : computeAffine gcps = some aff)
    (hsing : blockDet aff = 0) :
    runGeoreferencing gcps width height =
      .success (computeBounds width height aff) .passThrough
        (perPointResiduals aff gcps) (rmsError aff gcps) := by
  unfold runGeoreferencing
  rw [if_neg (by omega), haff]
  simp only [warpImage, if_pos hsing]

/-- C7 witness: five non-collinear GCPs all mapping to one geographic point
fit an affine transform with singular 2×2 block; the pipeline still
succeeds with the pass-through warp. -/
theorem singular_block_warp_passthrough_witness :
    (5 ≤ gcps5W.length) ∧
      computeAffine gcps5W = some ⟨![3, 0, 0], ![4, 0, 0]⟩ ∧
      blockDet ⟨![3, 0, 0], ![4, 0, 0]⟩ = 0 ∧
      runGeoreferencing gcps5W 1000 800 =
        .success (computeBounds 1000 800 ⟨![3, 0, 0], ![4, 0, 0]⟩) .passThrough
          (perPointResiduals ⟨![3, 0, 0], ![4, 0, 0]⟩ gcps5W)
          (rmsError ⟨![3, 0, 0], ![4, 0, 0]⟩ gcps5W) := by
  have h5 : 5 ≤ gcps5W.length := by simp [gcps5W]
  have haff : computeAffine gcps5W = some ⟨![3, 0, 0], ![4, 0, 0]⟩ := by
    apply computeAffine_of_fit
    · norm_num [det3, ata, gcps5W, designRow]
    · intro g hg
      fin_cases hg <;> norm_num [gcps5W]
    · intro g hg
      fin_cases hg <;> norm_num [gcps5W]
  have hs : blockDet ⟨![3, 0, 0], ![4, 0, 0]⟩ = 0 := by
    norm_num [blockDet]
  exact ⟨h5, haff, hs, singular_block_warp_passthrough gcps5W 1000 800 _ h5 haff hs⟩

/-- C2 (amended): a tile request answered 404 is treated as definitive
absence only in the sense that `_download_tile` stops retrying immediately
(any remaining attempt outcomes are ignored); the tile still yields `None`,
which `download_reference_image` counts toward the failed-tile fraction that
aborts the fetch when it exceeds 20% of the total tile count. -/
theorem notFound_counts_as_failure (rest : List HttpAttempt)
    (run : List (List HttpAttempt)) :
    downloadTile (.status 404 :: rest) = none ∧
      failuresCount ((.status 404 :: rest) :: run) = failuresCount run + 1 ∧
      (abortsDownload run = true ↔ (run.length : ℚ) * (1/5) < (failuresCount run : ℚ)) := by
  refine ⟨rfl, ?_, ?_⟩
  · simp [failuresCount, List.countP_cons, downloadTile, downloadTileGo, MAX_RETRIES]
  · simp [abortsDownload]

/-- Helper: Python rounding never goes below the floor. -/
theorem pyRoundQ_ge (x : ℚ) : ⌊x⌋ ≤ pyRoundQ x := by
  unfold pyRoundQ
  split_ifs <;> omega

/-- Helper: Python rounding never exceeds the floor plus one. -/
theorem pyRoundQ_le (x : ℚ) : pyRoundQ x ≤ ⌊x⌋ + 1 := by
  unfold pyRoundQ
  split_ifs <;> omega

/-- Helper: round-half-to-even is monotone. -/
theorem pyRoundQ_mono {x y : ℚ} (hxy : x ≤ y) : pyRoundQ x ≤ pyRoundQ y := by
  have hff : ⌊x⌋ ≤ ⌊y⌋ := Int.floor_le_floor hxy
  rcases eq_or_lt_of_le hff with hfe | hflt
  · unfold pyRoundQ
    rw [← hfe]
    have hr : x - ⌊x⌋ ≤ y - ⌊x⌋ := by linarith
    split_ifs <;> first | omega | linarith
  · have h1 := pyRoundQ_le x
    have h2 := pyRoundQ_ge y
    omega

/-- Helper: Python rounding fixes integers. -/
theorem pyRoundQ_intCast (n : ℤ) : pyRoundQ (n : ℚ) = n := by
  unfold pyRoundQ
  rw [Int.floor_intCast]
  norm_num

/-- Helper: `round(x, 1)` is monotone. -/
theorem round1Q_mono {x y : ℚ} (hxy : x ≤ y) : round1Q x ≤ round1Q y := by
  unfold round1Q
  have h : pyRoundQ (x * 10) ≤ pyRoundQ (y * 10) := pyRoundQ_mono (by linarith)
  have hc : ((pyRoundQ (x * 10) : ℚ)) ≤ ((pyRoundQ (y * 10) : ℚ)) := Int.cast_le.mpr h
  linarith

/-- Helper: `round(0, 1) = 0`. -/
theorem round1Q_zero : round1Q 0 = 0 := by
  unfold round1Q
  have h : ((0 : ℚ) * 10) = ((0 : ℤ) : ℚ) := by norm_num
  rw [h, pyRoundQ_intCast]
  norm_num

/-- Helper: `round(n, 1) = n` for a natural number. -/
theorem round1Q_natCast (n : ℕ) : round1Q (n : ℚ) = n := by
  unfold round1Q
  have h : ((n : ℚ) * 10) = (((n : ℤ) * 10 : ℤ) : ℚ) := by push_cast; ring
  rw [h, pyRoundQ_intCast]
  push_cast
  ring

/-- Helper: the dimensions and inverse scale produced by `_prepare_aerial`
rescale every in-bounds downsampled pixel back into the original raster. -/
theorem prepareDims_spec (w h : ℕ) (aw ah : ℤ) (invScale : ℚ)
    (hdims : prepareDims w h = (aw, ah, invScale)) :
    0 < invScale ∧ (aw : ℚ) * invScale ≤ (w : ℚ) ∧ (ah : ℚ) * invScale ≤ (h : ℚ) := by
  unfold prepareDims at hdims
  split_ifs at hdims with hbig
  · simp only [Prod.mk.injEq] at hdims
    obtain ⟨rfl, rfl, rfl⟩ := hdims
    have hM : (0 : ℚ) < (max w h : ℚ) := by
      have : 0 < max w h := by omega
      exact_mod_cast this
    have hMne : (max w h : ℚ) ≠ 0 := ne_of_gt hM
    have hVne : ((VISION_MAX_DIM : ℕ) : ℚ) ≠ 0 := by norm_num [VISION_MAX_DIM]
    refine ⟨div_pos hM (by norm_num [VISION_MAX_DIM]), ?_, ?_⟩
    · have ht : (0 : ℚ) ≤ (w : ℚ) * ((VISION_MAX_DIM : ℚ) / (max w h : ℚ)) := by
        apply mul_nonneg (Nat.cast_nonneg w)
        positivity
      rw [pyIntQ, if_pos ht]
      have hfl := Int.floor_le ((w : ℚ) * ((VISION_MAX_DIM : ℚ) / (max w h : ℚ)))
      have hscale : (0 : ℚ) ≤ (max w h : ℚ) / (VISION_MAX_DIM : ℚ) := by positivity
      calc ((⌊(w : ℚ) * ((VISION_MAX_DIM : ℚ) / (max w h : ℚ))⌋ : ℚ)) *
            ((max w h : ℚ) / (VISION_MAX_DIM : ℚ))
          ≤ ((w : ℚ) * ((VISION_MAX_DIM : ℚ) / (max w h : ℚ))) *
            ((max w h : ℚ) / (VISION_MAX_DIM : ℚ)) := by
            exact mul_le_mul_of_nonneg_right hfl hscale
        _ = (w : ℚ) := by
            field_simp
    · have ht : (0 : ℚ) ≤ (h : ℚ) * ((VISION_MAX_DIM : ℚ) / (max w h : ℚ)) := by
        apply mul_nonneg (Nat.cast_nonneg h)
        positivity
      rw [pyIntQ, if_pos ht]
      have hfl := Int.floor_le ((h : ℚ) * ((VISION_MAX_DIM : ℚ) / (max w h : ℚ)))
      have hscale : (0 : ℚ) ≤ (max w h : ℚ) / (VISION_MAX_DIM : ℚ) := by positivity
      calc ((⌊(h : ℚ) * ((VISION_MAX_DIM : ℚ) / (max w h : ℚ))⌋ : ℚ)) *
            ((max w h : ℚ) / (VISION_MAX_DIM : ℚ))
          ≤ ((h : ℚ) * ((VISION_MAX_DIM : ℚ) / (max w h : ℚ))) *
            ((max w h : ℚ) / (VISION_MAX_DIM : ℚ)) := by
            exact mul_le_mul_of_nonneg_right hfl hscale
        _ = (h : ℚ) := by
            field_simp
  · simp only [Prod.mk.injEq] at hdims
    obtain ⟨rfl, rfl, rfl⟩ := hdims
    refine ⟨one_pos, ?_, ?_⟩ <;> simp

/-- C9: every GCP returned by the vision strategy arises from a match that
survived the filter (confidence tier not "low" and coordinates inside both
downsampled image spaces, bounds inclusive), and consequently its pixel
coordinates lie within `[0, width] × [0, height]` of the original source
raster. -/
theorem vision_gcps_filtered_and_in_bounds
    (origW origH : ℕ) (aw ah : ℤ) (invScale : ℚ) (refW refH : ℚ)
    (ms : List VisionMatch) (oLon oLat adjLon adjLat : ℚ) (g : Gcp)
    (hdims : prepareDims origW origH = (aw, ah, invScale))
    (hg : g ∈ gcpsFromMatches ms (aw : ℚ) (ah : ℚ) refW refH oLon oLat adjLon adjLat invScale) :
    (∃ m ∈ ms,
      m.confidence ≠ "low" ∧
      (0 ≤ m.aerial_x ∧ m.aerial_x ≤ (aw : ℚ) ∧ 0 ≤ m.aerial_y ∧ m.aerial_y ≤ (ah : ℚ)) ∧
      (0 ≤ m.satellite_x ∧ m.satellite_x ≤ refW ∧ 0 ≤ m.satellite_y ∧ m.satellite_y ≤ refH) ∧
      g = gcpOfMatch m oLon oLat adjLon adjLat invScale) ∧
    (0 ≤ g.pixel_x ∧ g.pixel_x ≤ (origW : ℚ) ∧ 0 ≤ g.pixel_y ∧ g.pixel_y ≤ (origH : ℚ)) := by
  unfold gcpsFromMatches at hg
  obtain ⟨m, hmf, rfl⟩ := List.mem_map.mp hg
  obtain ⟨hm, hk⟩ := List.mem_filter.mp hmf
  simp only [keepMatch, Bool.and_eq_true, decide_eq_true_eq] at hk
  obtain ⟨⟨hconf, haer⟩, hsat⟩ := hk
  obtain ⟨hinv, hawW, hahH⟩ := prepareDims_spec origW origH aw ah invScale hdims
  refine ⟨⟨m, hm, hconf, haer, hsat, rfl⟩, ?_, ?_, ?_, ?_⟩
  · have h0 : (0 : ℚ) ≤ m.aerial_x * invScale := mul_nonneg haer.1 (le_of_lt hinv)
    have := round1Q_mono h0
    rw [round1Q_zero] at this
    exact this
  · have hle : m.aerial_x * invScale ≤ (origW : ℚ) := by
      calc m.aerial_x * invScale ≤ (aw : ℚ) * invScale :=
            mul_le_mul_of_nonneg_right haer.2.1 (le_of_lt hinv)
        _ ≤ (origW : ℚ) := hawW
    have := round1Q_mono hle
    rw [round1Q_natCast] at this
    exact this
  · have h0 : (0 : ℚ) ≤ m.aerial_y * invScale := mul_nonneg haer.2.2.1 (le_of_lt hinv)
    have := round1Q_mono h0
    rw [round1Q_zero] at this
    exact this
  · have hle : m.aerial_y * invScale ≤ (origH : ℚ) := by
      calc m.aerial_y * invScale ≤ (ah : ℚ) * invScale :=
            mul_le_mul_of_nonneg_right haer.2.2.2 (le_of_lt hinv)
        _ ≤ (origH : ℚ) := hahH
    have := round1Q_mono hle
    rw [round1Q_natCast] at this
    exact this

/-- C9 witness: on a 1500×1000 raster (no downsampling) with a single
high-confidence in-bounds match, the produced GCP's pixel coordinates stay
inside the original raster. -/
theorem vision_gcps_filtered_and_in_bounds_witness :
    prepareDims 1500 1000 = (1500, 1000, 1) ∧
      gcpOfMatch visionM1 (-90) 35 (1/1000) (-1/1000) 1 ∈
        gcpsFromMatches [visionM1] ((1500 : ℤ) : ℚ) ((1000 : ℤ) : ℚ) 800 600
          (-90) 35 (1/1000) (-1/1000) 1 ∧
      (0 ≤ (gcpOfMatch visionM1 (-90) 35 (1/1000) (-1/1000) 1).pixel_x ∧
        (gcpOfMatch visionM1 (-90) 35 (1/1000) (-1/1000) 1).pixel_x ≤ ((1500 : ℕ) : ℚ) ∧
        0 ≤ (gcpOfMatch visionM1 (-90) 35 (1/1000) (-1/1000) 1).pixel_y ∧
        (gcpOfMatch visionM1 (-90) 35 (1/1000) (-1/1000) 1).pixel_y ≤ ((1000 : ℕ) : ℚ)) := by
  have hdims : prepareDims 1500 1000 = (1500, 1000, 1) := by
    norm_num [prepareDims, VISION_MAX_DIM]
  have hkeep : keepMatch visionM1 ((1500 : ℤ) : ℚ) ((1000 : ℤ) : ℚ) 800 600 = true := by
    simp only [keepMatch, Bool.and_eq_true, decide_eq_true_eq, visionM1]
    refine ⟨⟨by decide, ?_⟩, ?_⟩ <;> norm_num
  have hg : gcpOfMatch visionM1 (-90) 35 (1/1000) (-1/1000) 1 ∈
      gcpsFromMatches [visionM1] ((1500 : ℤ) : ℚ) ((1000 : ℤ) : ℚ) 800 600
        (-90) 35 (1/1000) (-1/1000) 1 := by
    unfold gcpsFromMatches
    exact List.mem_map.mpr ⟨visionM1,
      List.mem_filter.mpr ⟨List.mem_singleton.mpr rfl, hkeep⟩, rfl⟩
  exact ⟨hdims, hg,
    (vision_gcps_filtered_and_in_bounds 1500 1000 1500 1000 1 800 600 [visionM1]
      (-90) 35 (1/1000) (-1/1000) _ hdims hg).2⟩

/-- Helper: keys of the grid after one update — unchanged when the cell is
already present, appended otherwise. -/
theorem keys_gridStep (h w : ℚ) (s : List ((ℤ × ℤ) × Corr)) (c : Corr) :
    (gridStep h w s c).map Prod.fst =
      if corrCell h w c ∈ s.map Prod.fst then s.map Prod.fst
      else s.map Prod.fst ++ [corrCell h w c] := by
  unfold gridStep
  cases hf : s.find? (fun p => decide (p.1 = corrCell h w c)) with
  | none =>
    have hnotin : corrCell h w c ∉ s.map Prod.fst := by
      intro hmem
      obtain ⟨p, hp, hpe⟩ := List.mem_map.mp hmem
      have := List.find?_eq_none.mp hf p hp
      simp [hpe] at this
    rw [if_neg hnotin]
    simp
  | some p =>
    have hpe : p.1 = corrCell h w c := by
      have := List.find?_some hf
      simpa using this
    have hpm : p ∈ s := List.mem_of_find?_eq_some hf
    have hin : corrCell h w c ∈ s.map Prod.fst :=
      List.mem_map.mpr ⟨p, hpm, hpe⟩
    rw [if_pos hin]
    dsimp only
    split_ifs with hd
    · rw [List.map_map]
      congr 1
      funext q
      by_cases hq : q.1 = corrCell h w c
      · simp [hq]
      · simp [hq]
    · rfl

/-- Helper: the grid keys stay duplicate-free. -/
theorem keys_nodup_gridStep (h w : ℚ) (s : List ((ℤ × ℤ) × Corr)) (c : Corr)
    (hnd : (s.map Prod.fst).Nodup) : ((gridStep h w s c).map Prod.fst).Nodup := by
  rw [keys_gridStep]
  split_ifs with hmem
  · exact hnd
  · simp only [List.nodup_append, List.nodup_cons, List.not_mem_nil, not_false_iff,
      List.nodup_nil, and_true, true_and]
    constructor
    · exact hnd
    · intro a ha
      simp only [List.mem_singleton]
      intro he
      exact hmem (he ▸ ha)

/-- Helper: the key set of the final grid is the initial key set plus the
cells of all processed correspondences. -/
theorem keys_foldl_toFinset (h w : ℚ) (cs : List Corr) :
    ∀ s : List ((ℤ × ℤ) × Corr),
      ((cs.foldl (gridStep h w) s).map Prod.fst).toFinset =
        (s.map Prod.fst).toFinset ∪ (cs.map (corrCell h w)).toFinset := by
  induction cs with
  | nil => intro s; simp
  | cons c cs ih =>
    intro s
    rw [List.foldl_cons, ih (gridStep h w s c), keys_gridStep]
    split_ifs with hmem
    · ext x
      simp only [Finset.mem_union, List.mem_toFinset, List.map_cons, List.mem_cons] at *
      constructor
      · rintro (hx | hx)
        · exact Or.inl hx
        · exact Or.inr (Or.inr hx)
      · rintro (hx | hx | hx)
        · exact Or.inl hx
        · exact Or.inl (hx ▸ hmem)
        · exact Or.inr hx
    · ext x
      simp only [Finset.mem_union, List.mem_toFinset, List.map_cons, List.mem_cons,
        List.mem_append, List.mem_singleton] at *
      tauto

/-- Helper: key distinctness survives the whole fold. -/
theorem keys_foldl_nodup (h w : ℚ) (cs : List Corr) :
    ∀ s : List ((ℤ × ℤ) × Corr), (s.map Prod.fst).Nodup →
      ((cs.foldl (gridStep h w) s).map Prod.fst).Nodup := by
  induction cs with
  | nil => intro s hs; exact hs
  | cons c cs ih =>
    intro s hs
    exact ih (gridStep h w s c) (keys_nodup_gridStep h w s c hs)

/-- Helper: the grid holds exactly one entry per distinct populated cell. -/
theorem buildGrid_length (h w : ℚ) (cs : List Corr) :
    (buildGrid h w cs).length = ((cs.map (corrCell h w)).toFinset).card := by
  have hnd := keys_foldl_nodup h w cs [] (by simp)
  have hts := keys_foldl_toFinset h w cs []
  simp only [List.map_nil, List.toFinset_nil, Finset.empty_union] at hts
  calc (buildGrid h w cs).length = ((buildGrid h w cs).map Prod.fst).length := by
        rw [List.length_map]
    _ = ((buildGrid h w cs).map Prod.fst).toFinset.card :=
        (List.toFinset_card_of_nodup hnd).symm
    _ = ((cs.map (corrCell h w)).toFinset).card := by
        unfold buildGrid
        rw [hts]

/-- Helper: an association list with duplicate-free keys stores one value
per key. -/
theorem key_unique (s : List ((ℤ × ℤ) × Corr)) (hnd : (s.map Prod.fst).Nodup)
    (k : ℤ × ℤ) (a b : Corr) (ha : (k, a) ∈ s) (hb : (k, b) ∈ s) : a = b := by
  induction s with
  | nil => cases ha
  | cons p s ih =>
    simp only [List.map_cons, List.nodup_cons] at hnd
    rcases List.mem_cons.mp ha with rfl | ha' <;> rcases List.mem_cons.mp hb with hb' | hb'
    · rw [Prod.ext_iff] at hb'
      exact hb'.2.symm
    · exact absurd (List.mem_map.mpr ⟨(k, b), hb', rfl⟩) hnd.1
    · rw [← hb'] at hnd
      exact absurd (List.mem_map.mpr ⟨(k, a), ha', rfl⟩) hnd.1
    · exact ih hnd.2 ha' hb'

/-- Helper: entries after one grid update come from the old grid or are the
new correspondence keyed by its own cell. -/
theorem mem_gridStep (h w : ℚ) (s : List ((ℤ × ℤ) × Corr)) (c : Corr)
    (p : (ℤ × ℤ) × Corr) (hp : p ∈ gridStep h w s c) :
    p ∈ s ∨ p = (corrCell h w c, c) := by
  unfold gridStep at hp
  cases hf : s.find? (fun p => decide (p.1 = corrCell h w c)) with
  | none =>
    rw [hf] at hp
    rcases List.mem_append.mp hp with hp' | hp'
    · exact Or.inl hp'
    · exact Or.inr (List.mem_singleton.mp hp')
  | some q =>
    rw [hf] at hp
    dsimp only at hp
    split_ifs at hp with hd
    · obtain ⟨r, hr, hre⟩ := List.mem_map.mp hp
      by_cases hrk : r.1 = corrCell h w c
      · rw [if_pos hrk] at hre
        exact Or.inr hre.symm
      · rw [if_neg hrk] at hre
        exact Or.inl (hre ▸ hr)
    · exact Or.inl hp

/-- Helper: every stored entry is keyed by its own cell. -/
theorem cellinv_gridStep (h w : ℚ) (s : List ((ℤ × ℤ) × Corr)) (c : Corr)
    (hs : ∀ p ∈ s, corrCell h w p.2 = p.1) :
    ∀ p ∈ gridStep h w s c, corrCell h w p.2 = p.1 := by
  intro p hp
  rcases mem_gridStep h w s c p hp with hp' | rfl
  · exact hs p hp'
  · rfl

/-- Helper: the cell-keying invariant survives the whole fold. -/
theorem foldl_cellinv (h w : ℚ) (cs : List Corr) :
    ∀ s : List ((ℤ × ℤ) × Corr), (∀ p ∈ s, corrCell h w p.2 = p.1) →
      ∀ p ∈ cs.foldl (gridStep h w) s, corrCell h w p.2 = p.1 := by
  induction cs with
  | nil => intro s hs; exact hs
  | cons c cs ih =>
    intro s hs
    exact ih (gridStep h w s c) (cellinv_gridStep h w s c hs)

/-- Helper: one grid update never worsens the stored distance of a key. -/
theorem gridStep_entry_le (h w : ℚ) (s : List ((ℤ × ℤ) × Corr)) (c : Corr)
    (hnd : (s.map Prod.fst).Nodup) (k : ℤ × ℤ) (e : Corr) (he : (k, e) ∈ s) :
    ∃ e2, (k, e2) ∈ gridStep h w s c ∧ e2.dist ≤ e.dist := by
  unfold gridStep
  cases hf : s.find? (fun p => decide (p.1 = corrCell h w c)) with
  | none => exact ⟨e, List.mem_append_left _ he, le_refl _⟩
  | some q =>
    have hq1 : q.1 = corrCell h w c := by
      have := List.find?_some hf
      simpa using this
    have hqm : q ∈ s := List.mem_of_find?_eq_some hf
    dsimp only
    split_ifs with hd
    · by_cases hk : k = corrCell h w c
      · have hqe : e = q.2 := by
          apply key_unique s hnd k e q.2 he
          rw [hk, ← hq1]
          exact hqm
        refine ⟨c, ?_, ?_⟩
        · apply List.mem_map.mpr
          refine ⟨(k, e), he, ?_⟩
          rw [if_pos hk, hk]
        · rw [hqe]
          exact le_of_lt hd
      · refine ⟨e, ?_, le_refl _⟩
        apply List.mem_map.mpr
        refine ⟨(k, e), he, ?_⟩
        rw [if_neg hk]
    · exact ⟨e, he, le_refl _⟩

/-- Helper: after processing a correspondence its cell holds an entry at
least as good. -/
theorem gridStep_new_entry (h w : ℚ) (s : List ((ℤ × ℤ) × Corr)) (c : Corr) :
    ∃ e, (corrCell h w c, e) ∈ gridStep h w s c ∧ e.dist ≤ c.dist := by
  unfold gridStep
  cases hf : s.find? (fun p => decide (p.1 = corrCell h w c)) with
  | none =>
    exact ⟨c, List.mem_append_right _ (List.mem_singleton.mpr rfl), le_refl _⟩
  | some q =>
    have hq1 : q.1 = corrCell h w c := by
      have := List.find?_some hf
      simpa using this
    have hqm : q ∈ s := List.mem_of_find?_eq_some hf
    dsimp only
    split_ifs with hd
    · refine ⟨c, ?_, le_refl _⟩
      apply List.mem_map.mpr
      exact ⟨q, hqm, by rw [if_pos hq1]⟩
    · refine ⟨q.2, ?_, not_lt.mp hd⟩
      rw [← hq1]
      exact hqm

/-- Helper: stored distances only improve across the whole fold. -/
theorem foldl_entry_le (h w : ℚ) (cs : List Corr) :
    ∀ s : List ((ℤ × ℤ) × Corr), (s.map Prod.fst).Nodup →
      ∀ (k : ℤ × ℤ) (e : Corr), (k, e) ∈ s →
        ∃ e2, (k, e2) ∈ cs.foldl (gridStep h w) s ∧ e2.dist ≤ e.dist := by
  induction cs with
  | nil => intro s _ k e he; exact ⟨e, he, le_refl _⟩
  | cons c cs ih =>
    intro s hnd k e he
    obtain ⟨e1, he1, hle1⟩ := gridStep_entry_le h w s c hnd k e he
    obtain ⟨e2, he2, hle2⟩ := ih (gridStep h w s c) (keys_nodup_gridStep h w s c hnd) k e1 he1
    exact ⟨e2, he2, le_trans hle2 hle1⟩

/-- Helper: each final grid entry's distance is minimal among the processed
correspondences of its cell. -/
theorem foldl_min (h w : ℚ) (cs : List Corr) :
    ∀ s : List ((ℤ × ℤ) × Corr), (s.map Prod.fst).Nodup →
      ∀ p ∈ cs.foldl (gridStep h w) s, ∀ c ∈ cs, corrCell h w c = p.1 →
        p.2.dist ≤ c.dist := by
  induction cs with
  | nil => intro s _ p _ c hc; cases hc
  | cons c0 cs ih =>
    intro s hnd p hp c hc hcell
    rcases List.mem_cons.mp hc with rfl | hc'
    · obtain ⟨e1, he1, hle1⟩ := gridStep_new_entry h w s c
      obtain ⟨e2, he2, hle2⟩ :=
        foldl_entry_le h w cs (gridStep h w s c) (keys_nodup_gridStep h w s c hnd) _ e1 he1
      have hndf := keys_foldl_nodup h w cs (gridStep h w s c) (keys_nodup_gridStep h w s c hnd)
      have hpe : p.2 = e2 := by
        apply key_unique _ hndf (corrCell h w c) p.2 e2
        · rw [hcell]
          exact hp
        · exact he2
      rw [hpe]
      exact le_trans hle2 hle1
    · exact ih (gridStep h w s c0) (keys_nodup_gridStep h w s c0 hnd) p hp c hc' hcell

/-- Helper: every final grid entry stores a processed correspondence. -/
theorem foldl_mem_src (h w : ℚ) (cs : List Corr) :
    ∀ s : List ((ℤ × ℤ) × Corr), ∀ p ∈ cs.foldl (gridStep h w) s,
      p ∈ s ∨ p.2 ∈ cs := by
  induction cs with
  | nil => intro s p hp; exact Or.inl hp
  | cons c cs ih =>
    intro s p hp
    rcases ih (gridStep h w s c) p hp with hp' | hp'
    · rcases mem_gridStep h w s c p hp' with hp2 | rfl
      · exact Or.inl hp2
      · exact Or.inr (List.mem_cons_self _ _)
    · exact Or.inr (List.mem_cons_of_mem _ hp')

/-- Helper: the source pixel of every zipped correspondence is one of the
input points. -/
theorem corrEntries_src_mem (srcPts dstPts : List (ℚ × ℚ)) (distances : List ℚ) :
    ∀ c ∈ corrEntries srcPts dstPts distances, c.src ∈ srcPts := by
  intro c hc
  obtain ⟨i, hi, rfl⟩ := List.mem_map.mp hc
  have hil : i < srcPts.length := List.mem_range.mp hi
  simp only
  rw [List.getD_eq_getElem _ _ hil]
  exact List.getElem_mem hil

/-- Helper: a correspondence with nonnegative source coordinates lands in
the 5×5 cell grid. -/
theorem corrCell_mem_grid (h w : ℚ) (hh : 0 < h) (hw : 0 < w) (c : Corr)
    (hx : 0 ≤ c.src.1) (hy : 0 ≤ c.src.2) :
    corrCell h w c ∈ (Finset.Icc (0 : ℤ) 4) ×ˢ (Finset.Icc (0 : ℤ) 4) := by
  have h5 : (0 : ℚ) < (GRID_SIZE : ℚ) := by norm_num [GRID_SIZE]
  have hrow : (0 : ℤ) ≤ pyIntQ (c.src.2 / (h / (GRID_SIZE : ℚ))) := by
    rw [pyIntQ, if_pos (div_nonneg hy (le_of_lt (div_pos hh h5)))]
    exact Int.floor_nonneg.mpr (div_nonneg hy (le_of_lt (div_pos hh h5)))
  have hcol : (0 : ℤ) ≤ pyIntQ (c.src.1 / (w / (GRID_SIZE : ℚ))) := by
    rw [pyIntQ, if_pos (div_nonneg hx (le_of_lt (div_pos hw h5)))]
    exact Int.floor_nonneg.mpr (div_nonneg hx (le_of_lt (div_pos hw h5)))
  simp only [Finset.mem_product, Finset.mem_Icc, corrCell]
  refine ⟨⟨le_min hrow (by norm_num [GRID_SIZE]), ?_⟩,
    ⟨le_min hcol (by norm_num [GRID_SIZE]), ?_⟩⟩
  · calc min (pyIntQ (c.src.2 / (h / (GRID_SIZE : ℚ)))) ((GRID_SIZE : ℤ) - 1)
        ≤ (GRID_SIZE : ℤ) - 1 := min_le_right _ _
      _ ≤ 4 := by norm_num [GRID_SIZE]
  · calc min (pyIntQ (c.src.1 / (w / (GRID_SIZE : ℚ)))) ((GRID_SIZE : ℤ) - 1)
        ≤ (GRID_SIZE : ℤ) - 1 := min_le_right _ _
      _ ≤ 4 := by norm_num [GRID_SIZE]

/-- C6: GCP selection keeps exactly one GCP per populated 5×5 grid cell —
for in-image correspondences the output has at most 25 GCPs; N
correspondences in pairwise distinct cells yield exactly N GCPs; N
correspondences all in one cell yield exactly 1 GCP; and each retained
entry has minimal descriptor distance within its cell. -/
theorem gcp_selection_one_per_cell
    (srcPts dstPts : List (ℚ × ℚ)) (distances : List ℚ) (h w : ℚ)
    (invScale oLon oLat szLon szLat : ℚ)
    (hh : 0 < h) (hw : 0 < w)
    (hin : ∀ p ∈ srcPts, 0 ≤ p.1 ∧ p.1 ≤ w ∧ 0 ≤ p.2 ∧ p.2 ≤ h) :
    (extractGcps srcPts dstPts distances h w invScale oLon oLat szLon szLat).length ≤ 25 ∧
      (((corrEntries srcPts dstPts distances).map (corrCell h w)).Nodup →
        (extractGcps srcPts dstPts distances h w invScale oLon oLat szLon szLat).length =
          srcPts.length) ∧
      ((∀ c1 ∈ corrEntries srcPts dstPts distances, ∀ c2 ∈ corrEntries srcPts dstPts distances,
          corrCell h w c1 = corrCell h w c2) → 0 < srcPts.length →
        (extractGcps srcPts dstPts distances h w invScale oLon oLat szLon szLat).length = 1) ∧
      (∀ p ∈ buildGrid h w (corrEntries srcPts dstPts distances),
        p.2 ∈ corrEntries srcPts dstPts distances ∧ corrCell h w p.2 = p.1 ∧
          ∀ c ∈ corrEntries srcPts dstPts distances, corrCell h w c = p.1 →
            p.2.dist ≤ c.dist) := by
  set cs := corrEntries srcPts dstPts distances with hcs
  have hlen : (extractGcps srcPts dstPts distances h w invScale oLon oLat szLon szLat).length =
      ((cs.map (corrCell h w)).toFinset).card := by
    unfold extractGcps
    rw [List.length_map, ← hcs, buildGrid_length]
  have hcslen : cs.length = srcPts.length := by
    rw [hcs]
    unfold corrEntries
    rw [List.length_map, List.length_range]
  refine ⟨?_, ?_, ?_, ?_⟩
  · rw [hlen]
    have hsub : (cs.map (corrCell h w)).toFinset ⊆
        (Finset.Icc (0 : ℤ) 4) ×ˢ (Finset.Icc (0 : ℤ) 4) := by
      intro x hx
      obtain ⟨c, hc, rfl⟩ := List.mem_map.mp (List.mem_toFinset.mp hx)
      have hsm := corrEntries_src_mem srcPts dstPts distances c hc
      obtain ⟨hx1, _, hy1, _⟩ := hin c.src hsm
      exact corrCell_mem_grid h w hh hw c hx1 hy1
    have hcard : ((Finset.Icc (0 : ℤ) 4) ×ˢ (Finset.Icc (0 : ℤ) 4)).card = 25 := by
      rw [Finset.card_product, Int.card_Icc]
      rfl
    calc ((cs.map (corrCell h w)).toFinset).card
        ≤ ((Finset.Icc (0 : ℤ) 4) ×ˢ (Finset.Icc (0 : ℤ) 4)).card := Finset.card_le_card hsub
      _ = 25 := hcard
  · intro hnodup
    rw [hlen, List.toFinset_card_of_nodup hnodup, List.length_map, hcslen]
  · intro hsame hpos
    have hcspos : 0 < cs.length := by rw [hcslen]; exact hpos
    obtain ⟨c0, rest, hc0⟩ : ∃ c0 rest, cs = c0 :: rest := by
      cases hcse : cs with
      | nil => rw [hcse] at hcspos; simp at hcspos
      | cons a l => exact ⟨a, l, rfl⟩
    have hc0m : c0 ∈ cs := by rw [hc0]; exact List.mem_cons_self _ _
    have hts : (cs.map (corrCell h w)).toFinset = {corrCell h w c0} := by
      apply Finset.eq_singleton_iff_unique_mem.mpr
      constructor
      · exact List.mem_toFinset.mpr (List.mem_map.mpr ⟨c0, hc0m, rfl⟩)
      · intro x hx
        obtain ⟨c, hc, rfl⟩ := List.mem_map.mp (List.mem_toFinset.mp hx)
        exact hsame c hc c0 hc0m
    rw [hlen, hts, Finset.card_singleton]
  · intro p hp
    have hsrc : p.2 ∈ cs := by
      rcases foldl_mem_src h w cs [] p hp with hmem | hmem
      · cases hmem
      · exact hmem
    have hcell := foldl_cellinv h w cs [] (by intro q hq; cases hq) p hp
    have hmin := foldl_min h w cs [] (by simp) p hp
    exact ⟨hsrc, hcell, hmin⟩

/-- C6 witness: a single in-image correspondence on a 100×100 raster yields
exactly one GCP. -/
theorem gcp_selection_one_per_cell_witness :
    (0 : ℚ) < 100 ∧
      (∀ p ∈ [((10 : ℚ), (20 : ℚ))], 0 ≤ p.1 ∧ p.1 ≤ (100 : ℚ) ∧ 0 ≤ p.2 ∧ p.2 ≤ (100 : ℚ)) ∧
      ((corrEntries [((10 : ℚ), (20 : ℚ))] [((1 : ℚ), (2 : ℚ))] [5]).map
        (corrCell 100 100)).Nodup ∧
      (extractGcps [((10 : ℚ), (20 : ℚ))] [((1 : ℚ), (2 : ℚ))] [5] 100 100
        1 (-90) 35 (1/1000) (-1/1000)).length = 1 := by
  have hin : ∀ p ∈ [((10 : ℚ), (20 : ℚ))],
      0 ≤ p.1 ∧ p.1 ≤ (100 : ℚ) ∧ 0 ≤ p.2 ∧ p.2 ≤ (100 : ℚ) := by
    intro p hp
    rw [List.mem_singleton.mp hp]
    norm_num
  have hnd : ((corrEntries [((10 : ℚ), (20 : ℚ))] [((1 : ℚ), (2 : ℚ))] [5]).map
      (corrCell 100 100)).Nodup := by
    simp [corrEntries, show List.range 1 = [0] from rfl]
  have h := gcp_selection_one_per_cell [((10 : ℚ), (20 : ℚ))] [((1 : ℚ), (2 : ℚ))] [5]
    100 100 1 (-90) 35 (1/1000) (-1/1000) (by norm_num) (by norm_num) hin
  refine ⟨by norm_num, hin, hnd, ?_⟩
  rw [h.2.1 hnd]
  rfl

/-- Helper: Python truncation of a nonnegative value is the floor. -/
theorem pyIntR_of_nonneg {x : ℝ} (hx : 0 ≤ x) : pyIntR x = ⌊x⌋ := if_pos hx

/-- Helper: truncation toward zero is monotone. -/
theorem pyIntR_mono {x y : ℝ} (h : x ≤ y) : pyIntR x ≤ pyIntR y := by
  unfold pyIntR
  split_ifs with h1 h2 h3
  · exact Int.floor_le_floor h
  · linarith
  · calc ⌈x⌉ ≤ (0 : ℤ) := Int.ceil_le.mpr (by exact_mod_cast le_of_lt (not_le.mp h1))
      _ ≤ ⌊y⌋ := Int.floor_nonneg.mpr h3
  · exact Int.ceil_le_ceil h

/-- Helper: sum-to-product identity for the sine. -/
theorem sin_add_sin_real (a b : ℝ) :
    Real.sin a + Real.sin b = 2 * Real.sin ((a + b)/2) * Real.cos ((a - b)/2) := by
  have h := Real.sin_sub_sin a (-b)
  rw [Real.sin_neg, show a - -b = a + b by ring, show a + -b = a - b by ring] at h
  linarith

/-- Helper: strict monotonicity of `(sin + 1)/cos` on `(-pi/2, pi/2)`. -/
theorem msc_strictMono {p1 p2 : ℝ} (hl : -(Real.pi/2) < p2) (hlt : p2 < p1)
    (hu : p1 < Real.pi/2) :
    (Real.sin p2 + 1) / Real.cos p2 < (Real.sin p1 + 1) / Real.cos p1 := by
  have hpi := Real.pi_pos
  have hc1 : 0 < Real.cos p1 := Real.cos_pos_of_mem_Ioo ⟨by linarith, hu⟩
  have hc2 : 0 < Real.cos p2 := Real.cos_pos_of_mem_Ioo ⟨hl, by linarith⟩
  rw [div_lt_div_iff₀ hc2 hc1]
  have hs : Real.sin p1 * Real.cos p2 - Real.cos p1 * Real.sin p2 = Real.sin (p1 - p2) :=
    (Real.sin_sub p1 p2).symm
  have hc : Real.cos p2 - Real.cos p1 =
      -2 * Real.sin ((p2 + p1)/2) * Real.sin ((p2 - p1)/2) := Real.cos_sub_cos _ _
  have hss : Real.sin (p1 - p2) =
      2 * Real.sin ((p1 - p2)/2) * Real.cos ((p1 - p2)/2) := by
    have h2m := Real.sin_two_mul ((p1 - p2)/2)
    rw [show 2 * ((p1 - p2)/2) = p1 - p2 by ring] at h2m
    exact h2m
  have hneg : Real.sin ((p2 - p1)/2) = -Real.sin ((p1 - p2)/2) := by
    rw [show (p2 - p1)/2 = -((p1 - p2)/2) by ring, Real.sin_neg]
  have hsym : Real.sin ((p2 + p1)/2) = Real.sin ((p1 + p2)/2) := by
    rw [add_comm]
  rw [hneg, hsym] at hc
  have hd2pos : 0 < Real.sin ((p1 - p2)/2) := by
    apply Real.sin_pos_of_pos_of_lt_pi
    · linarith
    · linarith
  have hsum : 0 < Real.sin ((p1 + p2)/2) + Real.cos ((p1 - p2)/2) := by
    have hcs : Real.cos ((p1 - p2)/2) = Real.sin (Real.pi/2 - (p1 - p2)/2) :=
      (Real.sin_pi_div_two_sub _).symm
    rw [hcs, add_comm]
    have hadd : Real.sin (Real.pi/2 - (p1 - p2)/2) + Real.sin ((p1 + p2)/2) =
        2 * Real.sin ((Real.pi/2 - (p1 - p2)/2 + (p1 + p2)/2)/2) *
          Real.cos ((Real.pi/2 - (p1 - p2)/2 - (p1 + p2)/2)/2) := sin_add_sin_real _ _
    rw [hadd]
    have h1 : (Real.pi/2 - (p1 - p2)/2 + (p1 + p2)/2)/2 = (Real.pi/2 + p2)/2 := by ring
    have h2 : (Real.pi/2 - (p1 - p2)/2 - (p1 + p2)/2)/2 = (Real.pi/2 - p1)/2 := by ring
    rw [h1, h2]
    have hs1 : 0 < Real.sin ((Real.pi/2 + p2)/2) := by
      apply Real.sin_pos_of_pos_of_lt_pi
      · linarith
      · linarith
    have hs2 : 0 < Real.cos ((Real.pi/2 - p1)/2) := by
      apply Real.cos_pos_of_mem_Ioo
      constructor
      · linarith
      · linarith
    positivity
  nlinarith [hs, hc, hss, hd2pos, hsum, mul_pos hd2pos hsum]

/-- Helper: clamping is monotone. -/
theorem clampTile_mono (zoom : ℕ) {a b : ℤ} (h : a ≤ b) :
    clampTile zoom a ≤ clampTile zoom b :=
  max_le_max (le_refl 0) (min_le_min (le_refl _) h)

/-- Helper: clamping is the identity on the valid tile range. -/
theorem clampTile_eq (zoom : ℕ) {v : ℤ} (h0 : 0 ≤ v) (h1 : v ≤ TILE_N zoom - 1) :
    clampTile zoom v = v := by
  unfold clampTile
  rw [min_eq_right h1, max_eq_right h0]

/-- Helper: `tan + sec` as a single quotient. -/
theorem mercFactor_eq_sin_cos (lat : ℝ) :
    mercFactor lat = (Real.sin (radians lat) + 1) / Real.cos (radians lat) := by
  unfold mercFactor
  rw [Real.tan_eq_sin_div_cos, div_add_div_same]

/-- Helper: the per-axis tile count is positive. -/
theorem TILE_N_pos (zoom : ℕ) : 0 < TILE_N zoom := by
  unfold TILE_N
  positivity

/-- Helper: latitudes below 90° convert to angles below π/2. -/
theorem radians_lt_pi_div_two {lat : ℝ} (h : lat < 90) : radians lat < Real.pi / 2 := by
  have hpi := Real.pi_pos
  unfold radians
  rw [div_lt_div_iff₀ (by norm_num : (0:ℝ) < 180) (by norm_num : (0:ℝ) < 2)]
  nlinarith

/-- Helper: latitudes above -90° convert to angles above -π/2. -/
theorem neg_pi_div_two_lt_radians {lat : ℝ} (h : -90 < lat) :
    -(Real.pi / 2) < radians lat := by
  have hpi := Real.pi_pos
  unfold radians
  rw [neg_lt, ← neg_div, ← neg_mul]
  rw [div_lt_div_iff₀ (by norm_num : (0:ℝ) < 180) (by norm_num : (0:ℝ) < 2)]
  nlinarith

/-- Helper: the logarithm argument of the tile formula is positive for
latitudes inside (-90°, 90°). -/
theorem mercFactor_pos {lat : ℝ} (h1 : -90 < lat) (h2 : lat < 90) :
    0 < mercFactor lat := by
  rw [mercFactor_eq_sin_cos]
  have hl := neg_pi_div_two_lt_radians h1
  have hu := radians_lt_pi_div_two h2
  have hc : 0 < Real.cos (radians lat) := Real.cos_pos_of_mem_Ioo ⟨hl, hu⟩
  have hs : -1 < Real.sin (radians lat) := by
    have hmono := Real.strictMonoOn_sin (a := -(Real.pi/2)) (b := radians lat)
    have h1m : -(Real.pi/2) ∈ Set.Icc (-(Real.pi/2)) (Real.pi/2) := by
      constructor <;> [exact le_refl _; linarith [Real.pi_pos]]
    have h2m : radians lat ∈ Set.Icc (-(Real.pi/2)) (Real.pi/2) := by
      constructor <;> [exact le_of_lt hl; exact le_of_lt hu]
    have := hmono h1m h2m hl
    rw [Real.sin_neg, Real.sin_pi_div_two] at this
    linarith
  exact div_pos (by linarith) hc

/-- Helper: the logarithm argument is strictly increasing in the latitude on
(-90°, 90°). -/
theorem mercFactor_lt {lat1 lat2 : ℝ} (ha : -90 < lat2) (hb : lat2 < lat1)
    (hc : lat1 < 90) : mercFactor lat2 < mercFactor lat1 := by
  rw [mercFactor_eq_sin_cos, mercFactor_eq_sin_cos]
  apply msc_strictMono
  · exact neg_pi_div_two_lt_radians ha
  · unfold radians
    have hpi := Real.pi_pos
    have : lat2 * Real.pi < lat1 * Real.pi := by nlinarith
    linarith
  · exact radians_lt_pi_div_two hc

/-- Helper: the tile row index is antitone in the latitude on (-90°, 90°). -/
theorem tileY_antitone (zoom : ℕ) {lat1 lat2 : ℝ} (ha : -90 < lat2) (hb : lat2 < lat1)
    (hc : lat1 < 90) : tileY lat1 zoom ≤ tileY lat2 zoom := by
  unfold tileY
  apply clampTile_mono
  apply pyIntR_mono
  have hpi := Real.pi_pos
  have hlog : Real.log (mercFactor lat2) < Real.log (mercFactor lat1) :=
    Real.log_lt_log (mercFactor_pos ha (lt_trans hb hc)) (mercFactor_lt ha hb hc)
  have hn : (0:ℝ) ≤ ((TILE_N zoom : ℤ) : ℝ) := by
    have := TILE_N_pos zoom
    exact_mod_cast le_of_lt this
  apply mul_le_mul_of_nonneg_right _ hn
  have : Real.log (mercFactor lat2) / Real.pi ≤ Real.log (mercFactor lat1) / Real.pi := by
    gcongr
  linarith

/-- Helper: the tile column index is monotone in the longitude. -/
theorem tileX_mono (zoom : ℕ) {lon1 lon2 : ℝ} (h : lon1 ≤ lon2) :
    tileX lon1 zoom ≤ tileX lon2 zoom := by
  unfold tileX
  apply clampTile_mono
  apply pyIntR_mono
  have hn : (0:ℝ) ≤ ((TILE_N zoom : ℤ) : ℝ) := by
    have := TILE_N_pos zoom
    exact_mod_cast le_of_lt this
  apply mul_le_mul_of_nonneg_right _ hn
  linarith

/-- C10 (amended): for every bounding box with `north > south`,
`east > west` AND both latitudes inside (-90°, 90°) — the regime where the
slippy-map formula is monotone — clamping and monotonicity give
`x_min ≤ x_max` and `y_min ≤ y_max`, hence `total_tiles ≥ 1`, and the
"Bounding box is too small or invalid" branch of
`download_reference_image` is unreachable. Without the latitude
restriction the branch is reachable (see the counterexample). -/
theorem tile_count_at_least_one_for_valid_latitudes (zoom : ℕ) (b : BBoxR)
    (hs : -90 < b.south) (hn : b.north < 90) (hns : b.south < b.north)
    (hew : b.west < b.east) :
    tileX b.west zoom ≤ tileX b.east zoom ∧
      tileY b.north zoom ≤ tileY b.south zoom ∧
      1 ≤ totalTiles b zoom ∧
      downloadCheck b zoom ≠ .tooSmall := by
  have hx := tileX_mono zoom (le_of_lt hew)
  have hy := tileY_antitone zoom hs hns hn
  have hnx : 1 ≤ numTilesX b zoom := by
    unfold numTilesX
    omega
  have hny : 1 ≤ numTilesY b zoom := by
    unfold numTilesY
    omega
  have htot : 1 ≤ totalTiles b zoom := by
    unfold totalTiles
    nlinarith
  refine ⟨hx, hy, htot, ?_⟩
  unfold downloadCheck
  split_ifs with h1 h2
  · intro hcon
    cases hcon
  · omega
  · intro hcon
    cases hcon

/-- C10 witness: a 0.1°×0.1° box north-east of the origin has positive tile
count and never reaches the too-small branch at zoom 17. -/
theorem tile_count_at_least_one_for_valid_latitudes_witness :
    ((-90 : ℝ) < (0 : ℝ) ∧ (1/10 : ℝ) < 90 ∧ (0 : ℝ) < (1/10 : ℝ)) ∧
      (1 ≤ totalTiles ⟨1/10, 0, 1/10, 0⟩ 17 ∧
        downloadCheck ⟨1/10, 0, 1/10, 0⟩ 17 ≠ .tooSmall) := by
  have h := tile_count_at_least_one_for_valid_latitudes 17 ⟨1/10, 0, 1/10, 0⟩
    (by norm_num) (by norm_num) (by norm_num) (by norm_num)
  exact ⟨⟨by norm_num, by norm_num, by norm_num⟩, h.2.2.1, h.2.2.2⟩

/-- Helper: the per-axis tile count at zoom 17, cast to the reals. -/
theorem tile_n_17 : ((TILE_N 17 : ℤ) : ℝ) = 131072 := by
  norm_num [TILE_N]

/-- Helper: 360° in radians. -/
theorem radians_360 : radians (360 : ℝ) = 2 * Real.pi := by
  unfold radians
  ring

/-- Helper: the logarithm argument at latitude 360° is exactly 1. -/
theorem mercFactor_360 : mercFactor 360 = 1 := by
  unfold mercFactor
  rw [radians_360, Real.tan_eq_sin_div_cos, Real.sin_two_pi, Real.cos_two_pi]
  norm_num

/-- Helper: the tile row of latitude 360° at zoom 17 is exactly the equator
row start 65536. -/
theorem tileY_360 : tileY 360 17 = 65536 := by
  unfold tileY
  rw [mercFactor_360, Real.log_one, tile_n_17]
  have harg : (1 - 0 / Real.pi) / 2 * (131072 : ℝ) = ((65536 : ℤ) : ℝ) := by
    norm_num
  rw [harg, pyIntR_of_nonneg (by norm_num), Int.floor_intCast]
  apply clampTile_eq
  · norm_num
  · norm_num [TILE_N]

/-- Helper: 45° in radians. -/
theorem radians_45 : radians (45 : ℝ) = Real.pi / 4 := by
  unfold radians
  ring

/-- Helper: the logarithm argument at 45° is `1 + sqrt 2`. -/
theorem mercFactor_45 : mercFactor 45 = 1 + Real.sqrt 2 := by
  unfold mercFactor
  rw [radians_45, Real.tan_pi_div_four, Real.cos_pi_div_four]
  have hs2 : Real.sqrt 2 ≠ 0 := by
    have : (0:ℝ) < Real.sqrt 2 := Real.sqrt_pos.mpr (by norm_num)
    linarith
  have : 1 / (Real.sqrt 2 / 2) = Real.sqrt 2 := by
    rw [one_div_div, div_eq_iff hs2, Real.mul_self_sqrt (by norm_num : (0:ℝ) ≤ 2)]
  rw [this]

/-- Helper: a numeric bound on the square root of two. -/
theorem sqrt_two_lt : Real.sqrt 2 < 3/2 := by
  rw [Real.sqrt_lt' (by norm_num : (0:ℝ) < 3/2)]
  norm_num

/-- Helper: the logarithm at 45° is positive. -/
theorem log_merc45_pos : 0 < Real.log (mercFactor 45) := by
  rw [mercFactor_45]
  apply Real.log_pos
  have : (0:ℝ) < Real.sqrt 2 := Real.sqrt_pos.mpr (by norm_num)
  linarith

/-- Helper: the logarithm at 45° is below π. -/
theorem log_merc45_lt_pi : Real.log (mercFactor 45) < Real.pi := by
  rw [mercFactor_45]
  have h1 : Real.log (1 + Real.sqrt 2) ≤ 1 + Real.sqrt 2 - 1 := by
    apply Real.log_le_sub_one_of_pos
    have : (0:ℝ) < Real.sqrt 2 := Real.sqrt_pos.mpr (by norm_num)
    linarith
  have h2 := sqrt_two_lt
  have h3 := Real.pi_gt_d2
  linarith

/-- Helper: the tile row of 45° at zoom 17 lies strictly above the equator
row start. -/
theorem tileY_45_bounds : 0 ≤ tileY 45 17 ∧ tileY 45 17 ≤ 65535 := by
  have hpi := Real.pi_pos
  set g := Real.log (mercFactor 45) with hg
  have hgpos := log_merc45_pos
  have hglt := log_merc45_lt_pi
  have harg1 : (0:ℝ) < (1 - g / Real.pi) / 2 * (131072 : ℝ) := by
    have : g / Real.pi < 1 := (div_lt_one hpi).mpr hglt
    nlinarith
  have harg2 : (1 - g / Real.pi) / 2 * (131072 : ℝ) < 65536 := by
    have : 0 < g / Real.pi := div_pos hgpos hpi
    nlinarith
  unfold tileY
  rw [← hg, tile_n_17, pyIntR_of_nonneg (le_of_lt harg1)]
  have hfl0 : 0 ≤ ⌊(1 - g / Real.pi) / 2 * (131072 : ℝ)⌋ := Int.floor_nonneg.mpr (le_of_lt harg1)
  have hfl1 : ⌊(1 - g / Real.pi) / 2 * (131072 : ℝ)⌋ < 65536 := by
    rw [Int.floor_lt]
    exact_mod_cast harg2
  rw [clampTile_eq 17 hfl0 (by norm_num [TILE_N]; omega)]
  omega

/-- Helper: the tile column of longitude -90° at zoom 17. -/
theorem tileX_neg90 : tileX (-90) 17 = 32768 := by
  unfold tileX
  rw [tile_n_17]
  have harg : ((-90 : ℝ) + 180) / 360 * (131072 : ℝ) = ((32768 : ℤ) : ℝ) := by
    norm_num
  rw [harg, pyIntR_of_nonneg (by norm_num), Int.floor_intCast]
  apply clampTile_eq
  · norm_num
  · norm_num [TILE_N]

/-- Helper: the tile column of longitude -90.001° at zoom 17. -/
theorem tileX_west10 : tileX (-90001/1000) 17 = 32767 := by
  unfold tileX
  rw [tile_n_17]
  have h0 : (0:ℝ) ≤ ((-90001/1000 : ℝ) + 180) / 360 * (131072 : ℝ) := by norm_num
  rw [pyIntR_of_nonneg h0]
  have hfl : ⌊((-90001/1000 : ℝ) + 180) / 360 * (131072 : ℝ)⌋ = 32767 := by
    apply Int.floor_eq_iff.mpr
    constructor
    · norm_num
    · norm_num
  rw [hfl]
  apply clampTile_eq
  · norm_num
  · norm_num [TILE_N]

/-- C10 counterexample: the box `c10Box` has `north > south` and
`east > west`, yet its Mercator row indices invert (north = 360° is outside
the monotone latitude range), `total_tiles < 1`, and
`download_reference_image` raises the "Bounding box is too small or
invalid" error — so the count-below-one branch is reachable under the
claim's precondition alone. -/
theorem out_of_range_latitude_reaches_too_small :
    c10Box.south < c10Box.north ∧ c10Box.west < c10Box.east ∧
      totalTiles c10Box 17 < 1 ∧ downloadCheck c10Box 17 = .tooSmall := by
  have hy360 : tileY (360:ℝ) 17 = 65536 := tileY_360
  have hy45 := tileY_45_bounds
  have hx1 : tileX (-90:ℝ) 17 = 32768 := tileX_neg90
  have hx2 : tileX (-90001/1000:ℝ) 17 = 32767 := tileX_west10
  have hnx : numTilesX c10Box 17 = 2 := by
    unfold numTilesX c10Box
    simp only
    rw [hx1, hx2]
    norm_num
  have hny : numTilesY c10Box 17 ≤ 0 := by
    unfold numTilesY c10Box
    simp only
    rw [hy360]
    omega
  have htot : totalTiles c10Box 17 < 1 := by
    unfold totalTiles
    rw [hnx]
    omega
  refine ⟨by norm_num [c10Box], by norm_num [c10Box], htot, ?_⟩
  unfold downloadCheck
  rw [if_neg (by omega), if_pos htot]

/-- Helper: a lower bound on the logarithm near one. -/
theorem log_ge_frac {x : ℝ} (hx : 0 ≤ x) : x / (1 + x) ≤ Real.log (1 + x) := by
  have h1 : (0:ℝ) < 1 + x := by linarith
  have h2 := Real.log_le_sub_one_of_pos (show (0:ℝ) < (1 + x)⁻¹ by positivity)
  rw [Real.log_inv] at h2
  have h3 : (1 + x)⁻¹ - 1 = -(x / (1 + x)) := by field_simp
  rw [h3] at h2
  linarith

/-- Helper: 0.25° in radians. -/
theorem radians_quarter : radians (1/4 : ℝ) = Real.pi/720 := by
  unfold radians
  ring

/-- Helper: π/720 is below π/2. -/
theorem pi720_lt_pi_div_two : Real.pi/720 < Real.pi/2 := by
  have hpi := Real.pi_pos
  nlinarith

/-- Helper: lower bound on the logarithm argument at 0.25°. -/
theorem merc_quarter_lower : 1 + Real.pi/720 ≤ mercFactor (1/4 : ℝ) := by
  unfold mercFactor
  rw [radians_quarter]
  have hpi := Real.pi_pos
  have h1 := pi720_lt_pi_div_two
  have htan : Real.pi/720 < Real.tan (Real.pi/720) := Real.lt_tan (by positivity) h1
  have hcos_pos : 0 < Real.cos (Real.pi/720) :=
    Real.cos_pos_of_mem_Ioo ⟨by linarith, h1⟩
  have hcos_le : Real.cos (Real.pi/720) ≤ 1 := Real.cos_le_one _
  have hsec : 1 ≤ 1 / Real.cos (Real.pi/720) := by
    rw [le_div_iff₀ hcos_pos]
    linarith
  linarith

/-- Helper: upper bound on the logarithm argument at 0.25°. -/
theorem merc_quarter_upper : mercFactor (1/4 : ℝ) ≤ 2 := by
  unfold mercFactor
  rw [radians_quarter]
  have hpi := Real.pi_pos
  have hpilt := Real.pi_lt_d2
  have hle4 : Real.pi/720 ≤ Real.pi/4 := by nlinarith
  have hcos_ge : Real.sqrt 2 / 2 ≤ Real.cos (Real.pi/720) := by
    have hc := Real.cos_le_cos_of_nonneg_of_le_pi (by positivity : (0:ℝ) ≤ Real.pi/720)
      (by linarith : Real.pi/4 ≤ Real.pi) hle4
    rw [Real.cos_pi_div_four] at hc
    exact hc
  have hsqrt : (14/10 : ℝ) ≤ Real.sqrt 2 := by
    rw [Real.le_sqrt (by norm_num) (by norm_num)]
    norm_num
  have hcos07 : (7/10 : ℝ) ≤ Real.cos (Real.pi/720) := by linarith
  have hcos_pos : (0:ℝ) < Real.cos (Real.pi/720) := by linarith
  have hsin : Real.sin (Real.pi/720) ≤ Real.pi/720 := Real.sin_le (by positivity)
  have htan : Real.tan (Real.pi/720) ≤ (Real.pi/720) / (7/10) := by
    rw [Real.tan_eq_sin_div_cos]
    calc Real.sin (Real.pi/720) / Real.cos (Real.pi/720)
        ≤ (Real.pi/720) / Real.cos (Real.pi/720) := by gcongr
      _ ≤ (Real.pi/720) / (7/10) := by
          gcongr
  have hsec : 1 / Real.cos (Real.pi/720) ≤ 10/7 := by
    calc 1 / Real.cos (Real.pi/720)
        ≤ 1 / (7/10 : ℝ) := one_div_le_one_div_of_le (by norm_num) hcos07
      _ = 10/7 := by norm_num
  have htanb : Real.tan (Real.pi/720) ≤ 1/2 := by
    have : (Real.pi/720) / (7/10) ≤ (315/100/720) / (7/10) := by
      gcongr
      linarith
    have hnum : ((315/100 : ℝ)/720) / (7/10) ≤ 1/2 := by norm_num
    linarith
  linarith [hsec, htanb]

/-- Helper: positivity of the logarithm argument at 0.25°. -/
theorem merc_quarter_pos : 0 < mercFactor (1/4 : ℝ) := by
  have := merc_quarter_lower
  have hpi := Real.pi_pos
  linarith

/-- Helper: lower bound on the logarithm at 0.25°. -/
theorem g_quarter_lower : Real.pi/1440 ≤ Real.log (mercFactor (1/4 : ℝ)) := by
  have hpi := Real.pi_pos
  have hpilt := Real.pi_lt_d2
  have h1 : Real.log (1 + Real.pi/720) ≤ Real.log (mercFactor (1/4 : ℝ)) :=
    Real.log_le_log (by positivity) merc_quarter_lower
  have h2 : (Real.pi/720) / (1 + Real.pi/720) ≤ Real.log (1 + Real.pi/720) :=
    log_ge_frac (by positivity)
  have h3 : Real.pi/1440 ≤ (Real.pi/720) / (1 + Real.pi/720) := by
    rw [div_le_div_iff₀ (by norm_num : (0:ℝ) < 1440) (by positivity : (0:ℝ) < 1 + Real.pi/720)]
    nlinarith
  linarith

/-- Helper: upper bound on the logarithm at 0.25°. -/
theorem g_quarter_upper : Real.log (mercFactor (1/4 : ℝ)) ≤ 1 := by
  have h1 : Real.log (mercFactor (1/4 : ℝ)) ≤ mercFactor (1/4 : ℝ) - 1 :=
    Real.log_le_sub_one_of_pos merc_quarter_pos
  have := merc_quarter_upper
  linarith

/-- Helper: the logarithm argument at a negated latitude is the inverse
(Gudermannian symmetry). -/
theorem mercFactor_neg {lat : ℝ} (h1 : -90 < lat) (h2 : lat < 90) :
    mercFactor (-lat) = (mercFactor lat)⁻¹ := by
  have hl := neg_pi_div_two_lt_radians h1
  have hu := radians_lt_pi_div_two h2
  have hc : 0 < Real.cos (radians lat) := Real.cos_pos_of_mem_Ioo ⟨hl, hu⟩
  have hrn : radians (-lat) = -(radians lat) := by
    unfold radians
    ring
  have hs1 : 0 < Real.sin (radians lat) + 1 := by
    have hmono := Real.strictMonoOn_sin (a := -(Real.pi/2)) (b := radians lat)
    have h1m : -(Real.pi/2) ∈ Set.Icc (-(Real.pi/2)) (Real.pi/2) := by
      constructor <;> [exact le_refl _; linarith [Real.pi_pos]]
    have h2m : radians lat ∈ Set.Icc (-(Real.pi/2)) (Real.pi/2) := by
      constructor <;> [exact le_of_lt hl; exact le_of_lt hu]
    have := hmono h1m h2m hl
    rw [Real.sin_neg, Real.sin_pi_div_two] at this
    linarith
  rw [mercFactor_eq_sin_cos, mercFactor_eq_sin_cos, hrn, Real.sin_neg, Real.cos_neg]
  rw [inv_div, div_eq_div_iff (ne_of_gt hc) (by linarith : Real.sin (radians lat) + 1 ≠ 0)]
  have hpy := Real.sin_sq_add_cos_sq (radians lat)
  nlinarith [hpy]

/-- Helper: the tile column of the west edge of `c1Box` at zoom 17. -/
theorem tileX_c1_west : tileX (-361/4 : ℝ) 17 = 32676 := by
  unfold tileX
  rw [tile_n_17]
  have h0 : (0:ℝ) ≤ ((-361/4 : ℝ) + 180) / 360 * (131072 : ℝ) := by norm_num
  rw [pyIntR_of_nonneg h0]
  have hfl : ⌊((-361/4 : ℝ) + 180) / 360 * (131072 : ℝ)⌋ = 32676 := by
    apply Int.floor_eq_iff.mpr
    constructor
    · norm_num
    · norm_num
  rw [hfl]
  apply clampTile_eq
  · norm_num
  · norm_num [TILE_N]

/-- Helper: the tile column of the east edge of `c1Box` at zoom 17. -/
theorem tileX_c1_east : tileX (-359/4 : ℝ) 17 = 32859 := by
  unfold tileX
  rw [tile_n_17]
  have h0 : (0:ℝ) ≤ ((-359/4 : ℝ) + 180) / 360 * (131072 : ℝ) := by norm_num
  rw [pyIntR_of_nonneg h0]
  have hfl : ⌊((-359/4 : ℝ) + 180) / 360 * (131072 : ℝ)⌋ = 32859 := by
    apply Int.floor_eq_iff.mpr
    constructor
    · norm_num
    · norm_num
  rw [hfl]
  apply clampTile_eq
  · norm_num
  · norm_num [TILE_N]

/-- Helper: bounds on the scaled logarithm at 0.25° and zoom 17. -/
theorem k_bounds :
    1 ≤ Real.log (mercFactor (1/4 : ℝ)) * 65536 / Real.pi ∧
      Real.log (mercFactor (1/4 : ℝ)) * 65536 / Real.pi ≤ 20872 := by
  have hpi := Real.pi_pos
  have hpigt := Real.pi_gt_d2
  have hg1 := g_quarter_lower
  have hg2 := g_quarter_upper
  constructor
  · have h1 : (Real.pi/1440) * 65536 / Real.pi ≤
        Real.log (mercFactor (1/4 : ℝ)) * 65536 / Real.pi := by
      gcongr
    have h2 : (Real.pi/1440) * 65536 / Real.pi = 65536/1440 := by
      field_simp
      ring
    rw [h2] at h1
    linarith [h1]
  · have h1 : Real.log (mercFactor (1/4 : ℝ)) * 65536 / Real.pi ≤ 1 * 65536 / Real.pi := by
      gcongr
    have h2 : (1 : ℝ) * 65536 / Real.pi ≤ 1 * 65536 / 3.14 := by
      gcongr
    have h3 : (1 : ℝ) * 65536 / 3.14 ≤ 20872 := by norm_num
    linarith

/-- Helper: the tile row of the north edge of `c1Box` at zoom 17 stays
strictly above the equator row. -/
theorem tileY_c1_north : 0 ≤ tileY (1/4 : ℝ) 17 ∧ tileY (1/4 : ℝ) 17 ≤ 65535 := by
  have hpi := Real.pi_pos
  obtain ⟨hk1, hk2⟩ := k_bounds
  set g := Real.log (mercFactor (1/4 : ℝ)) with hgdef
  have harg : (1 - g / Real.pi) / 2 * (131072 : ℝ) = 65536 - g * 65536 / Real.pi := by
    field_simp
    ring
  unfold tileY
  rw [← hgdef, tile_n_17, harg]
  have h0 : (0:ℝ) ≤ 65536 - g * 65536 / Real.pi := by linarith
  rw [pyIntR_of_nonneg h0]
  have hlt : ⌊(65536 : ℝ) - g * 65536 / Real.pi⌋ < 65536 := by
    rw [Int.floor_lt]
    push_cast
    linarith
  have hge : 0 ≤ ⌊(65536 : ℝ) - g * 65536 / Real.pi⌋ := Int.floor_nonneg.mpr h0
  rw [clampTile_eq 17 hge (by norm_num [TILE_N]; omega)]
  omega

/-- Helper: the tile row of the south edge of `c1Box` at zoom 17 lies at
least two rows below the north edge's row. -/
theorem tileY_c1_south : 65537 ≤ tileY (-1/4 : ℝ) 17 ∧ tileY (-1/4 : ℝ) 17 ≤ 131071 := by
  have hpi := Real.pi_pos
  obtain ⟨hk1, hk2⟩ := k_bounds
  set g := Real.log (mercFactor (1/4 : ℝ)) with hgdef
  have hneg : mercFactor (-1/4 : ℝ) = (mercFactor (1/4 : ℝ))⁻¹ := by
    have h := mercFactor_neg (by norm_num : (-90:ℝ) < 1/4) (by norm_num : (1/4:ℝ) < 90)
    rw [show (-(1/4 : ℝ)) = (-1/4 : ℝ) by norm_num] at h
    exact h
  have hlog : Real.log (mercFactor (-1/4 : ℝ)) = -g := by
    rw [hneg, Real.log_inv, hgdef]
  have harg : (1 - (-g) / Real.pi) / 2 * (131072 : ℝ) = 65536 + g * 65536 / Real.pi := by
    field_simp
    ring
  unfold tileY
  rw [tile_n_17, hlog, harg]
  have h0 : (0:ℝ) ≤ 65536 + g * 65536 / Real.pi := by linarith
  rw [pyIntR_of_nonneg h0]
  have hge : (65537 : ℤ) ≤ ⌊(65536 : ℝ) + g * 65536 / Real.pi⌋ := by
    rw [Int.le_floor]
    push_cast
    linarith
  have hle : ⌊(65536 : ℝ) + g * 65536 / Real.pi⌋ ≤ 131071 := by
    have : ((65536 : ℝ) + g * 65536 / Real.pi) ≤ 131071 := by linarith
    calc ⌊(65536 : ℝ) + g * 65536 / Real.pi⌋ ≤ ⌊(131071 : ℝ)⌋ := Int.floor_le_floor this
      _ = 131071 := by
        norm_num
  have htn : TILE_N 17 - 1 = 131071 := by norm_num [TILE_N]
  have hcl := clampTile_eq 17 (v := ⌊(65536 : ℝ) + g * 65536 / Real.pi⌋)
    (by omega) (by rw [htn]; exact hle)
  rw [hcl]
  omega

/-- Helper: `c1Box` needs more than 400 tiles at zoom 17 and the
too-many-tiles error is raised. -/
theorem c1_total_gt :
    400 < totalTiles c1Box 17 ∧ downloadCheck c1Box 17 = .tooMany := by
  have hxw : tileX c1Box.west 17 = 32676 := tileX_c1_west
  have hxe : tileX c1Box.east 17 = 32859 := tileX_c1_east
  have hyn := tileY_c1_north
  have hys := tileY_c1_south
  have hnx : numTilesX c1Box 17 = 184 := by
    unfold numTilesX
    rw [hxw, hxe]
    norm_num
  have hny : 3 ≤ numTilesY c1Box 17 := by
    unfold numTilesY
    have h1 : tileY c1Box.south 17 = tileY (-1/4 : ℝ) 17 := rfl
    have h2 : tileY c1Box.north 17 = tileY (1/4 : ℝ) 17 := rfl
    rw [h1, h2]
    omega
  have htot : 400 < totalTiles c1Box 17 := by
    unfold totalTiles
    rw [hnx]
    nlinarith
  refine ⟨htot, ?_⟩
  unfold downloadCheck
  rw [if_pos htot]

/-- C1 counterexample: `c1Box` has both spans equal to 0.5° — inside
[MIN_SPAN, MAX_SPAN] — yet at zoom 17 it needs more than 400 tiles, so
`download_reference_image` raises the count-exceeds-400 invalid-input
failure; the claimed bound `count ≤ 400` is false. -/
theorem half_degree_box_exceeds_tile_limit :
    (1/1000 : ℝ) ≤ c1Box.north - c1Box.south ∧ c1Box.north - c1Box.south ≤ 1/2 ∧
      (1/1000 : ℝ) ≤ c1Box.east - c1Box.west ∧ c1Box.east - c1Box.west ≤ 1/2 ∧
      400 < totalTiles c1Box 17 ∧ downloadCheck c1Box 17 = .tooMany := by
  have h := c1_total_gt
  exact ⟨by norm_num [c1Box], by norm_num [c1Box], by norm_num [c1Box],
    by norm_num [c1Box], h.1, h.2⟩

/-- C1 (amended): the tile count computed by `download_reference_image` at
zoom 17 equals `(x_max - x_min + 1) * (y_max - y_min + 1)` over the clamped
slippy-map indices of the box corners, and the count-exceeds-400 failure is
raised exactly when that count exceeds 400; spans inside
[MIN_SPAN, MAX_SPAN] do NOT bound the count by 400 — a box with both spans
0.5° already needs more than 400 tiles and fails. -/
theorem tile_count_formula_and_overflow :
    (∀ (b : BBoxR) (zoom : ℕ), totalTiles b zoom =
      (tileX b.east zoom - tileX b.west zoom + 1) *
        (tileY b.south zoom - tileY b.north zoom + 1)) ∧
      (∀ b : BBoxR, downloadCheck b 17 = .tooMany ↔ 400 < totalTiles b 17) ∧
      (∃ b : BBoxR, (1/1000 : ℝ) ≤ b.north - b.south ∧ b.north - b.south ≤ 1/2 ∧
        (1/1000 : ℝ) ≤ b.east - b.west ∧ b.east - b.west ≤ 1/2 ∧
        400 < totalTiles b 17) := by
  refine ⟨fun b zoom => rfl, ?_, ?_⟩
  · intro b
    unfold downloadCheck
    split_ifs with h1 h2
    · exact ⟨fun _ => h1, fun _ => rfl⟩
    · exact Iff.intro (fun hcon => nomatch hcon) (fun hcon => absurd hcon h1)
    · exact Iff.intro (fun hcon => nomatch hcon) (fun hcon => absurd hcon h1)
  · exact ⟨c1Box, by norm_num [c1Box], by norm_num [c1Box], by norm_num [c1Box],
      by norm_num [c1Box], c1_total_gt.1⟩

end MapSync
